import Mathlib

/-!
Verification of the text-preprocessing pipeline in
src/preprocess/preprocess.py (class TextPreprocessor).

Strings are modelled as List Char (Unicode scalar values). Each method of
the class becomes a Lean function; the re.sub calls are implemented as
structurally recursive scanners whose semantics (leftmost, non-overlapping,
greedy matching, scanning resuming after each match) follow Python's re
module; run-skipping is carried in a small state argument instead of a
dropWhile call so that every function reduces in the kernel.
The verbose/statistics code prints only and never changes the text, so it
is not modelled.

Modelling notes, recorded where they apply:
- normalize_unicode applies unicodedata.normalize NFC.  It is modelled as
  the identity function; see its doc comment for why this is faithful for
  every claim proved here.
- Python's str whitespace (str.strip, regex backslash-s) is the Unicode
  whitespace set, reproduced in isPySpaceB.
- The regex word class (backslash-w) and digit class are modelled on their
  ASCII part; every pattern using them is ASCII, and (as proved below) the
  matches in question are impossible on pipeline strings regardless of how
  the class treats non-ASCII characters.
-/

/-! ## Character constants and classes -/

def nl : Char := '\n'

def cr : Char := '\r'

def tab : Char := '\t'

def spc : Char := ' '

/-- The ASCII double quote, code 34. -/
def quot : Char := Char.ofNat 34

/-- The ASCII apostrophe, code 39. -/
def apos : Char := Char.ofNat 39

/-- Lowercase a with circumflex, U+00E2: first character of the UTF-8-read-as-Latin-1 artifacts. -/
def aHat : Char := Char.ofNat 0xE2

/-- The euro sign U+20AC: second character of the artifacts. -/
def euro : Char := Char.ofNat 0x20AC

/-- Trade mark sign U+2122 (third character of the smart-apostrophe artifact). -/
def tmSign : Char := Char.ofNat 0x2122

/-- Latin small ligature oe, U+0153 (third character of the open-quote artifact). -/
def oeLig : Char := Char.ofNat 0x153

/-- Capital A with circumflex, U+00C2: the non-breaking-space artifact. -/
def aCap : Char := Char.ofNat 0xC2

/-- Broken bar U+00A6 (third character of the ellipsis artifact). -/
def brokenBar : Char := Char.ofNat 0xA6

/-- En dash U+2013. -/
def enDash : Char := Char.ofNat 0x2013

/-- Em dash U+2014. -/
def emDash : Char := Char.ofNat 0x2014

/-- Horizontal ellipsis U+2026. -/
def hellip : Char := Char.ofNat 0x2026

/-- Nat interval test as a Bool. -/
def between (lo hi n : Nat) : Bool := Nat.ble lo n && Nat.ble n hi

/-- Python str whitespace (the set matched by regex backslash-s on str and
stripped by str.strip): tab through carriage return, the four information
separators, space, next line, no-break space, ogham space mark, the
en-quad..hair-space range, line and paragraph separators, narrow no-break
space, medium mathematical space, ideographic space. -/
def isPySpaceB (c : Char) : Bool :=
  between 9 13 c.toNat || between 28 31 c.toNat || c.toNat == 32 ||
  c.toNat == 133 || c.toNat == 160 || c.toNat == 0x1680 ||
  between 0x2000 0x200A c.toNat || c.toNat == 0x2028 || c.toNat == 0x2029 ||
  c.toNat == 0x202F || c.toNat == 0x205F || c.toNat == 0x3000

/-- Space or tab, the class used by normalize_whitespace. -/
def spTabB (c : Char) : Bool := c == spc || c == tab

/-- The sentence-ending punctuation class of remove_mid_sentence_newlines. -/
def punctB (c : Char) : Bool := c == '.' || c == '!' || c == '?' || c == ':' || c == ';'

def isUpperAsciiB (c : Char) : Bool := between 65 90 c.toNat

def isLowerAsciiB (c : Char) : Bool := between 97 122 c.toNat

def isDigitB (c : Char) : Bool := between 48 57 c.toNat

/-- ASCII part of the regex word class; see the modelling note at the top. -/
def isWordCharB (c : Char) : Bool :=
  isUpperAsciiB c || isLowerAsciiB c || isDigitB c || c == '_'

/-! ## Generic list-of-characters helpers -/

/-- Does the second list start with the first one? -/
def startsWithSeq : List Char → List Char → Bool
  | [], _ => true
  | _ :: _, [] => false
  | p :: ps, c :: cs => p == c && startsWithSeq ps cs

/-- Does the pattern occur as a contiguous run somewhere in the list? -/
def containsSeq (pat : List Char) : List Char → Bool
  | [] => pat.isEmpty
  | c :: r => startsWithSeq pat (c :: r) || containsSeq pat r

theorem startsWithSeq_length {p s : List Char} (h : startsWithSeq p s = true) :
    p.length ≤ s.length := by
  induction p generalizing s with
  | nil => simp
  | cons a ps ih =>
    cases s with
    | nil => simp [startsWithSeq] at h
    | cons c cs =>
      simp only [startsWithSeq, Bool.and_eq_true] at h
      simpa using ih h.2

theorem length_dropWhile_le (p : Char → Bool) (l : List Char) :
    (List.dropWhile p l).length ≤ l.length := by
  induction l with
  | nil => simp [List.dropWhile]
  | cons a t ih =>
    simp only [List.dropWhile]
    split
    · exact Nat.le_succ_of_le ih
    · simp

/-- Worker for pyReplace.  A positive first argument means that many input
characters still belong to the last replaced occurrence and are skipped;
at zero the scanner tries to match the pattern at the current position,
emits the replacement and skips the matched occurrence on success, and
otherwise copies one character.  This is Python str.replace: leftmost,
non-overlapping, resuming after each occurrence. -/
def pyRepGo (pat rep : List Char) : Nat → List Char → List Char
  | _ + 1, [] => []
  | skip + 1, _ :: r => pyRepGo pat rep skip r
  | 0, [] => []
  | 0, c :: r =>
    if startsWithSeq pat (c :: r) then
      rep ++ pyRepGo pat rep (pat.length - 1) r
    else c :: pyRepGo pat rep 0 r

/-- Python str.replace.  The source only calls it with nonempty patterns;
the empty-pattern guard just returns the input. -/
def pyReplace (pat rep : List Char) (s : List Char) : List Char :=
  if pat.isEmpty then s else pyRepGo pat rep 0 s

/-- Split at every newline; the result always has one more entry than the
number of newlines, like Python str.split on a single character. -/
def splitNl : List Char → List (List Char)
  | [] => [[]]
  | c :: r =>
    if c = nl then [] :: splitNl r
    else
      match splitNl r with
      | l :: ls => (c :: l) :: ls
      | [] => [[c]]

/-- Join with single newlines, like a newline join in Python. -/
def joinNl : List (List Char) → List Char
  | [] => []
  | l :: ls =>
    match ls with
    | [] => l
    | _ :: _ => l ++ nl :: joinNl ls

/-- Drop the maximal matching suffix: the structural form of a right
strip.  A character is dropped exactly when it matches and everything
after it was dropped. -/
def rdropWhile (p : Char → Bool) : List Char → List Char
  | [] => []
  | c :: r =>
    let v := rdropWhile p r
    if v.isEmpty && p c then [] else c :: v

/-- Python str.strip: drop leading and trailing Unicode whitespace. -/
def pyStrip (s : List Char) : List Char :=
  rdropWhile isPySpaceB (List.dropWhile isPySpaceB s)

/-! ## Step 2: normalize_unicode -/

/-- Step 2 of the pipeline applies unicodedata.normalize NFC.  It is
modelled as the identity function.  This is faithful for statements about
a single application of the pipeline: they quantify over all inputs while
constraining only the output, and every stage after this one is modelled
exactly, so precomposing with the real NFC map would not enlarge the set of
outputs the theorems speak about; and every concrete input used below
consists only of characters that are NFC-invariant and non-combining, on
which NFC is the identity.  It is not an adequate model for re-applying
the pipeline to its own output, because NFC can compose a combining
sequence that survives a first pass; statements about a second pass are
therefore made about preprocess_with, which abstracts this stage and
quantifies over every normalization function, the real NFC included. -/
def normalize_unicode (s : List Char) : List Char := s

/-! ## Step 3: remove_control_characters -/

/-- The character class of the removal regex in remove_control_characters:
00-08, 0B, 0C, 0E-1F, 7F-9F. -/
def removableCtrl (c : Char) : Bool :=
  Nat.ble c.toNat 8 || c.toNat == 11 || c.toNat == 12 ||
  between 14 31 c.toNat || between 127 159 c.toNat

/-- Step 3: re.sub deleting every character of the class above. -/
def remove_control_characters (s : List Char) : List Char :=
  s.filter (fun c => !removableCtrl c)

/-! ## Step 7 in the file, third stage applied: fix_common_encoding_issues -/

/-- The replacements dict of fix_common_encoding_issues, as Python iterates
it.  In the source the em-dash and en-dash entries are written with the
IDENTICAL key (a-circumflex, euro sign, ASCII double quote): a duplicate
key in a dict literal keeps the first entry's position and the last
entry's value, so the single surviving dash entry maps to the en dash.
Iteration order is insertion order. -/
def encodingFixes : List (List Char × List Char) :=
  [ ([aHat, euro, tmSign], [apos])
  , ([aHat, euro, oeLig], [quot])
  , ([aHat, euro], [quot])
  , ([aHat, euro, quot], [enDash])
  , ([aCap], [])
  , ([aHat, euro, brokenBar], ['.', '.', '.'])
  ]

/-- The stage applies str.replace once per table entry, in iteration order. -/
def fix_common_encoding_issues (s : List Char) : List Char :=
  encodingFixes.foldl (fun t pr => pyReplace pr.1 pr.2 t) s

/-! ## Step 8 in the file, fourth stage applied: clean_special_characters -/

/-- The smart-double-quote regex class in the source is written with three
ASCII double quotes, so it is the one-character class containing the ASCII
double quote; the substitution maps it to itself. -/
def quotFix (c : Char) : Char := if c = quot then quot else c

/-- Same for the smart-single-quote class: three ASCII apostrophes. -/
def apoFix (c : Char) : Char := if c = apos then apos else c

/-- The dash class holds the genuine en dash and em dash; both become a hyphen. -/
def dashFix (c : Char) : Char := if c = enDash || c = emDash then '-' else c

def clean_special_characters (s : List Char) : List Char :=
  pyReplace [hellip] ['.', '.', '.'] (List.map dashFix (List.map apoFix (List.map quotFix s)))

/-! ## Step 4, fifth stage applied: normalize_whitespace -/

/-- Worker for the re.sub of one-or-more space-or-tab to a single space:
the Bool records being inside a run, whose first character emitted the
single space. -/
def collapseSpTabGo (inRun : Bool) : List Char → List Char
  | [] => []
  | c :: r =>
    if spTabB c then
      if inRun then collapseSpTabGo true r
      else spc :: collapseSpTabGo true r
    else c :: collapseSpTabGo false r

def collapseSpTab (s : List Char) : List Char := collapseSpTabGo false s

/-- re.sub of CRLF-or-CR to newline. -/
def crlfToNl : List Char → List Char
  | [] => []
  | [c] => if c = cr then [nl] else [c]
  | c :: d :: r =>
    if c = cr then
      if d = nl then nl :: crlfToNl r else nl :: crlfToNl (d :: r)
    else c :: crlfToNl (d :: r)

/-- Drop trailing spaces and tabs of one line. -/
def rstripSpTab (l : List Char) : List Char := rdropWhile spTabB l

/-- The MULTILINE re.sub of trailing space-or-tab runs: it deletes every
space-or-tab run standing immediately before a newline or at the end, which
is exactly a per-line right strip of spaces and tabs. -/
def rstripLines (s : List Char) : List Char := joinNl ((splitNl s).map rstripSpTab)

def normalize_whitespace (s : List Char) : List Char :=
  rstripLines (crlfToNl (collapseSpTab s))

/-! ## Step 5, sixth stage applied: remove_excessive_newlines -/

/-- Worker for the re.sub of three-or-more newlines to two
(preserve_paragraphs True): the counter is how many newlines of the current
run have been emitted, saturating at two, so runs of one or two newlines
pass through and longer runs come out as exactly two. -/
def collapseNl3Go (k : Nat) : List Char → List Char
  | [] => []
  | c :: r =>
    if c = nl then
      if k < 2 then nl :: collapseNl3Go (k + 1) r
      else collapseNl3Go k r
    else c :: collapseNl3Go 0 r

def collapseNl3 (s : List Char) : List Char := collapseNl3Go 0 s

/-- Worker for the re.sub of two-or-more newlines to one
(preserve_paragraphs False): runs of newlines come out as a single
newline; a lone newline is unchanged either way. -/
def collapseNl2Go (inRun : Bool) : List Char → List Char
  | [] => []
  | c :: r =>
    if c = nl then
      if inRun then collapseNl2Go true r
      else nl :: collapseNl2Go true r
    else c :: collapseNl2Go false r

def collapseNl2 (s : List Char) : List Char := collapseNl2Go false s

def remove_excessive_newlines (preserve_paragraphs : Bool) (s : List Char) : List Char :=
  if preserve_paragraphs then collapseNl3 s else collapseNl2 s

/-! ## Step 5.5, seventh stage applied: remove_mid_sentence_newlines -/

/-- Worker for its step 1, re.sub of one-or-more newlines to one space:
a maximal newline run emits a single space at its first character. -/
def nlPlusToSpaceGo (inRun : Bool) : List Char → List Char
  | [] => []
  | c :: r =>
    if c = nl then
      if inRun then nlPlusToSpaceGo true r
      else spc :: nlPlusToSpaceGo true r
    else c :: nlPlusToSpaceGo false r

def nlPlusToSpace (s : List Char) : List Char := nlPlusToSpaceGo false s

/-- Worker for its step 2, re.sub of one-or-more whitespace to one space:
a maximal whitespace run emits a single space at its first character. -/
def wsPlusToSpaceGo (inRun : Bool) : List Char → List Char
  | [] => []
  | c :: r =>
    if isPySpaceB c then
      if inRun then wsPlusToSpaceGo true r
      else spc :: wsPlusToSpaceGo true r
    else c :: wsPlusToSpaceGo false r

def wsPlusToSpace (s : List Char) : List Char := wsPlusToSpaceGo false s

/-- Worker for its step 3, the re.sub replacing punctuation followed by a
whitespace run with the punctuation and a newline: the Bool records that
the whitespace run of the last match is still being consumed. -/
def breakGo (skipWs : Bool) : List Char → List Char
  | [] => []
  | c :: r =>
    if skipWs && isPySpaceB c then breakGo true r
    else
      if punctB c && (match r with | d :: _ => isPySpaceB d | [] => false) then
        c :: nl :: breakGo true r
      else c :: breakGo false r

def breakAfterPunct (s : List Char) : List Char := breakGo false s

/-- The alternatives of the abbreviation group, in the order the regex
tries them. -/
def abbrevList : List (List Char) :=
  [ ['M', 'r'], ['M', 'r', 's'], ['D', 'r'], ['M', 's']
  , ['P', 'r', 'o', 'f'], ['v', 's'], ['e', 't', 'c']
  , ['i', '.', 'e'], ['e', '.', 'g'] ]

/-- First alternative that, followed by a newline, starts here. -/
def matchAbbrev (s : List Char) : Option (List Char) :=
  abbrevList.find? (fun alt => startsWithSeq (alt ++ [nl]) s)

/-- Worker for its step 4 first sub: the abbreviation pattern is a word
boundary, the alternation group, then a literal newline; the replacement
is the group, a period and a space.  Every alternative starts with a word
character, so the boundary holds exactly when the previous input character
is not a word character (string start included); the Bool carries that
bit.  A positive counter means that many characters of the matched
occurrence remain to be skipped; scanning resumes after the matched
newline, whose input predecessor for the next boundary test is the newline
itself, a non-word character, so the bit is false there. -/
def abbrevGoS : Nat → Bool → List Char → List Char
  | _ + 1, _, [] => []
  | skip + 1, _, _ :: r => abbrevGoS skip false r
  | 0, _, [] => []
  | 0, prevW, c :: r =>
    match matchAbbrev (c :: r) with
    | some alt =>
      if prevW then c :: abbrevGoS 0 (isWordCharB c) r
      else alt ++ '.' :: spc :: abbrevGoS alt.length false r
    | none => c :: abbrevGoS 0 (isWordCharB c) r

def abbrevSub (s : List Char) : List Char := abbrevGoS 0 false s

/-- Its step 4 second sub: digit, newline, digit becomes digit, period,
digit; scanning resumes after the second digit. -/
def digitSub : List Char → List Char
  | [] => []
  | [c] => [c]
  | [c, d] => [c, d]
  | c :: d1 :: d2 :: r2 =>
    if isDigitB c && d1 == nl && isDigitB d2 then c :: '.' :: d2 :: digitSub r2
    else c :: digitSub (d1 :: d2 :: r2)

/-- Worker for its step 5, re.sub of one-or-more spaces then newline to
the newline: the counter holds pending spaces, flushed when the run is not
followed by a newline and dropped when it is. -/
def spaceNlGo : Nat → List Char → List Char
  | pend, [] => List.replicate pend spc
  | pend, c :: r =>
    if c = spc then spaceNlGo (pend + 1) r
    else
      if c = nl then nl :: spaceNlGo 0 r
      else List.replicate pend spc ++ c :: spaceNlGo 0 r

def spaceNlSub (s : List Char) : List Char := spaceNlGo 0 s

/-- Its step 6 group: capital letter, one-or-more lowercase letters, a
space, one-or-more digits and a comma; the runs are greedy with no useful
backtracking, so they are the maximal lowercase run (which must be
followed by the space) and the maximal digit run (which must be followed
by the comma).  Returns the matched group, whose length is the number of
characters consumed. -/
def capMatch (s : List Char) : Option (List Char) :=
  match s with
  | [] => none
  | c :: r =>
    if isUpperAsciiB c then
      let lows := r.takeWhile isLowerAsciiB
      if lows.isEmpty then none
      else
        match r.drop lows.length with
        | d :: r2 =>
          if d = spc then
            let digs := r2.takeWhile isDigitB
            if digs.isEmpty then none
            else
              match r2.drop digs.length with
              | e :: _ => if e = ',' then some (c :: lows ++ spc :: digs ++ [',']) else none
              | [] => none
          else none
        | [] => none
    else none

/-- Worker for its step 6 as a substitution: the match consumes a newline
and the group; the replacement doubles the newline and keeps the group, and
a positive counter skips the group characters of the input. -/
def paraGo : Nat → List Char → List Char
  | _ + 1, [] => []
  | skip + 1, _ :: r => paraGo skip r
  | 0, [] => []
  | 0, c :: r =>
    if c = nl then
      match capMatch r with
      | some m => nl :: nl :: m ++ paraGo m.length r
      | none => nl :: paraGo 0 r
    else c :: paraGo 0 r

def paraSub (s : List Char) : List Char := paraGo 0 s

/-- Step 5.5 of the pipeline, composing its six substitutions and the strip. -/
def remove_mid_sentence_newlines (s : List Char) : List Char :=
  paraSub (spaceNlSub (digitSub (abbrevSub
    (breakAfterPunct (pyStrip (wsPlusToSpace (nlPlusToSpace s)))))))

/-! ## Step 6, eighth stage applied: remove_empty_lines -/

/-- The line filter: the stripped line must be truthy (nonempty) and at
least min_line_length long. -/
def keepLine (min_line_length : Nat) (l : List Char) : Bool :=
  !(pyStrip l).isEmpty && Nat.ble min_line_length (pyStrip l).length

def remove_empty_lines (min_line_length : Nat) (s : List Char) : List Char :=
  joinNl ((splitNl s).filter (keepLine min_line_length))

/-! ## The pipeline: preprocess_text -/

/-- preprocess_text applies the stages in the order of the source, then a
final str.strip. -/
def preprocess_text (preserve_paragraphs : Bool) (min_line_length : Nat)
    (s : List Char) : List Char :=
  pyStrip (remove_empty_lines min_line_length
    (remove_mid_sentence_newlines
      (remove_excessive_newlines preserve_paragraphs
        (normalize_whitespace
          (clean_special_characters
            (fix_common_encoding_issues
              (remove_control_characters
                (normalize_unicode s))))))))

/-! ## Inputs used by concrete claims -/

/-- The sentence-segmentation example input of the specification. -/
def c2input : List Char :=
  ("Patient presented with fever.\nTemperature was 38.5 C.\nDr. Smith examined the patient.").toList

/-- What remove_mid_sentence_newlines actually produces on c2input. -/
def c2actual : List Char :=
  ("Patient presented with fever.\nTemperature was 38.5 C.\nDr.\nSmith examined the patient.").toList

/-! ## Claim C1 -/

/-- C1: the encoding-repair table is claimed to apply the longer dash
patterns with priority over their two-character prefix (the close-quote
artifact), so that every dash mojibake sequence becomes its intended dash.
The code iterates the dict in insertion order, where the close-quote entry
precedes the single surviving dash entry (the two dash keys are the same
string, so the em-dash entry is overwritten); on the dash sequence itself
the close-quote rule fires first and the output is two ASCII quotes with
no dash at all. -/
theorem c1_dash_mojibake_corrupted :
    fix_common_encoding_issues [aHat, euro, quot] = [quot, quot] ∧
    containsSeq [emDash] (fix_common_encoding_issues [aHat, euro, quot]) = false ∧
    containsSeq [enDash] (fix_common_encoding_issues [aHat, euro, quot]) = false :=
  ⟨by decide, by decide, by decide⟩

/-! ## Claim C2 -/

set_option maxRecDepth 4000 in
/-- C2: on the specification's example input the re-segmentation stage
keeps 38.5 intact (true: the break regex requires whitespace after the
punctuation), but it does NOT suppress the break after the abbreviation:
the abbreviation regex looks for the abbreviation immediately followed by
a newline, while the text after break insertion always has a period before
the newline, so the output contains a line break immediately after the
period of Dr. -/
theorem c2_abbreviation_break_not_suppressed :
    remove_mid_sentence_newlines c2input = c2actual ∧
    containsSeq (("38.5").toList) c2actual = true ∧
    containsSeq ['D', 'r', '.', nl] c2actual = true :=
  ⟨by decide, by decide, by decide⟩

/-! ## Claim C4 -/

/-- C4: the pipeline is total and maps the empty string to the empty
string under every configuration.  Totality holds by construction: every
stage is a total function of the embedding, so the only checkable content
is the empty-string equation, proved for both flag values and every
minimum line length. -/
theorem c4_empty_string_total :
    ∀ (preserve_paragraphs : Bool) (min_line_length : Nat),
      preprocess_text preserve_paragraphs min_line_length [] = [] := by
  intro pp ml
  cases pp <;> rfl

/-! ## Claim C8 -/

/-- C0 control codes: U+0000 through U+001F. -/
def isC0 (c : Char) : Bool := Nat.ble c.toNat 31

/-- C1 control codes: U+0080 through U+009F. -/
def isC1 (c : Char) : Bool := between 128 159 c.toNat

/-- The removal class the claim describes: C0 controls other than newline
(10), carriage return (13) and tab (9), plus the C1 controls. -/
def claimedCtrlRemovable (c : Char) : Bool :=
  (isC0 c && !(c.toNat == 10 || c.toNat == 13 || c.toNat == 9)) || isC1 c

/-- C8 counterexample: the code also removes DEL (U+007F), which is
neither a C0 nor a C1 control code, so the stage is not the filter the
claim describes: it does not preserve every character outside the claimed
class. -/
theorem c8_del_counterexample :
    remove_control_characters [Char.ofNat 0x7F] ≠
      List.filter (fun c => !claimedCtrlRemovable c) [Char.ofNat 0x7F] := by
  decide

theorem removableCtrl_eq_claimed_or_del (c : Char) :
    removableCtrl c = (claimedCtrlRemovable c || c.toNat == 127) := by
  rw [Bool.eq_iff_iff]
  simp only [removableCtrl, claimedCtrlRemovable, isC0, isC1, between,
    Bool.or_eq_true, Bool.and_eq_true, Bool.not_eq_true', Bool.or_eq_false_iff,
    Nat.ble_eq, beq_iff_eq, beq_eq_false_iff_ne, ne_eq]
  omega

/-- C8 amended: the stage removes exactly the C0 controls other than
newline, carriage return and tab, the DEL character U+007F, and the C1
controls, and preserves every other character in order (it is the filter
keeping the complement of that class). -/
theorem c8_amended_control_filter :
    ∀ s : List Char,
      remove_control_characters s =
        s.filter (fun c => !(claimedCtrlRemovable c || c.toNat == 127)) := by
  intro s
  unfold remove_control_characters
  apply List.filter_congr
  intro c _
  rw [removableCtrl_eq_claimed_or_del]

/-! ## Toolkit: lines, strips and adjacent pairs -/

theorem splitNl_ne_nil (s : List Char) : splitNl s ≠ [] := by
  cases s with
  | nil => simp [splitNl]
  | cons c r =>
    simp only [splitNl]
    split
    · simp
    · split <;> simp

theorem head?_eq_mem {α : Type} {l : List α} {a : α} (h : l.head? = some a) : a ∈ l := by
  cases l with
  | nil => simp at h
  | cons c r => simp at h; simp [h]

theorem getLast?_eq_mem {α : Type} {l : List α} {a : α} (h : l.getLast? = some a) : a ∈ l := by
  induction l with
  | nil => simp at h
  | cons c r ih =>
    cases r with
    | nil => simp at h; simp [h]
    | cons d t =>
      rw [List.getLast?_cons_cons] at h
      exact List.mem_cons_of_mem c (ih h)

theorem mem_splitNl_no_nl {s l : List Char} (h : l ∈ splitNl s) : nl ∉ l := by
  induction s generalizing l with
  | nil =>
    simp [splitNl] at h
    simp [h]
  | cons c r ih =>
    simp only [splitNl] at h
    by_cases hc : c = nl
    · rw [if_pos hc] at h
      rcases List.mem_cons.mp h with h1 | h2
      · simp [h1]
      · exact ih h2
    · rw [if_neg hc] at h
      rcases hsp : splitNl r with _ | ⟨l0, ls⟩
      · exact absurd hsp (splitNl_ne_nil r)
      · rw [hsp] at h
        rcases List.mem_cons.mp h with h1 | h2
        · subst h1
          intro hmem
          rcases List.mem_cons.mp hmem with h3 | h4
          · exact hc h3.symm
          · have hl0 : l0 ∈ splitNl r := by rw [hsp]; exact List.mem_cons_self l0 ls
            exact ih hl0 h4
        · have hl : l ∈ splitNl r := by rw [hsp]; exact List.mem_cons_of_mem l0 h2
          exact ih hl

/-- Splitting a newline-free list is the one-entry list. -/
theorem splitNl_of_no_nl {l : List Char} (h : nl ∉ l) : splitNl l = [l] := by
  induction l with
  | nil => simp [splitNl]
  | cons c r ih =>
    have hc : c ≠ nl := fun hc => h (by simp [hc])
    have hr : nl ∉ r := fun hr => h (List.mem_cons_of_mem c hr)
    simp only [splitNl, if_neg hc, ih hr]

/-- Splitting a join at the first newline after a newline-free first part. -/
theorem splitNl_append_cons {l t : List Char} (h : nl ∉ l) :
    splitNl (l ++ nl :: t) = l :: splitNl t := by
  induction l with
  | nil => simp [splitNl]
  | cons c r ih =>
    have hc : c ≠ nl := fun hc => h (by simp [hc])
    have hr : nl ∉ r := fun hr => h (List.mem_cons_of_mem c hr)
    have hstep : (c :: r) ++ nl :: t = c :: (r ++ nl :: t) := rfl
    rw [hstep]
    simp only [splitNl, if_neg hc]
    rw [ih hr]

/-- Joining the split recovers the original list. -/
theorem joinNl_splitNl (s : List Char) : joinNl (splitNl s) = s := by
  induction s with
  | nil => simp [splitNl, joinNl]
  | cons c r ih =>
    simp only [splitNl]
    by_cases hc : c = nl
    · rw [if_pos hc]
      subst hc
      rcases hsp : splitNl r with _ | ⟨l0, ls⟩
      · exact absurd hsp (splitNl_ne_nil r)
      · rw [hsp] at ih
        have hjoin : joinNl ([] :: l0 :: ls) = nl :: joinNl (l0 :: ls) := rfl
        rw [hjoin, ih]
    · rw [if_neg hc]
      rcases hsp : splitNl r with _ | ⟨l0, ls⟩
      · exact absurd hsp (splitNl_ne_nil r)
      · rw [hsp] at ih
        cases ls with
        | nil =>
          have h1 : joinNl [l0] = l0 := rfl
          rw [h1] at ih
          show joinNl [c :: l0] = c :: r
          have h2 : joinNl [c :: l0] = c :: l0 := rfl
          rw [h2, ih]
        | cons l1 ls' =>
          have h1 : joinNl (l0 :: l1 :: ls') = l0 ++ nl :: joinNl (l1 :: ls') := rfl
          rw [h1] at ih
          show joinNl ((c :: l0) :: l1 :: ls') = c :: r
          have h2 : joinNl ((c :: l0) :: l1 :: ls') = (c :: l0) ++ nl :: joinNl (l1 :: ls') := rfl
          rw [h2]
          rw [← ih]
          rfl

/-- Splitting a join of newline-free parts recovers the parts. -/
theorem splitNl_joinNl {ls : List (List Char)} (hne : ls ≠ [])
    (h : ∀ l ∈ ls, nl ∉ l) : splitNl (joinNl ls) = ls := by
  induction ls with
  | nil => exact absurd rfl hne
  | cons l rest ih =>
    cases rest with
    | nil =>
      simp only [joinNl]
      exact splitNl_of_no_nl (h l (List.mem_cons_self l []))
    | cons l2 t =>
      simp only [joinNl]
      rw [splitNl_append_cons (h l (List.mem_cons_self l (l2 :: t)))]
      have := ih (by simp) (fun x hx => h x (List.mem_cons_of_mem l hx))
      simp only [joinNl] at this
      rw [this]

/-- Every adjacent pair of characters satisfies the relation. -/
def pairsOK (R : Char → Char → Prop) : List Char → Prop
  | [] => True
  | [_] => True
  | a :: b :: t => R a b ∧ pairsOK R (b :: t)

theorem pairsOK_nil {R : Char → Char → Prop} : pairsOK R [] := trivial

theorem pairsOK_single {R : Char → Char → Prop} {a : Char} : pairsOK R [a] := trivial

theorem pairsOK_tail {R : Char → Char → Prop} {c : Char} {r : List Char}
    (h : pairsOK R (c :: r)) : pairsOK R r := by
  cases r with
  | nil => trivial
  | cons d t => exact h.2

theorem pairsOK_cons {R : Char → Char → Prop} {a : Char} {y : List Char}
    (h1 : ∀ b, y.head? = some b → R a b) (h2 : pairsOK R y) : pairsOK R (a :: y) := by
  cases y with
  | nil => trivial
  | cons b t => exact ⟨h1 b rfl, h2⟩

theorem pairsOK_head {R : Char → Char → Prop} {a b : Char} {t : List Char}
    (h : pairsOK R (a :: b :: t)) : R a b := h.1

theorem pairsOK_append {R : Char → Char → Prop} {x y : List Char}
    (hx : pairsOK R x) (hy : pairsOK R y)
    (hb : ∀ a b, x.getLast? = some a → y.head? = some b → R a b) :
    pairsOK R (x ++ y) := by
  induction x with
  | nil => simpa using hy
  | cons a x' ih =>
    have htail : pairsOK R (x' ++ y) := by
      apply ih (pairsOK_tail hx)
      intro p q hp hq
      apply hb p q _ hq
      cases x' with
      | nil => simp at hp
      | cons c t => rw [List.getLast?_cons_cons]; exact hp
    rw [List.cons_append]
    apply pairsOK_cons _ htail
    intro b hbhead
    cases x' with
    | nil =>
      simp only [List.nil_append] at hbhead
      exact hb a b rfl hbhead
    | cons c t =>
      simp only [List.cons_append, List.head?_cons, Option.some.injEq] at hbhead
      subst hbhead
      exact pairsOK_head hx

theorem pairsOK_of_prefix {R : Char → Char → Prop} {x t : List Char}
    (h : pairsOK R (x ++ t)) : pairsOK R x := by
  induction x with
  | nil => trivial
  | cons a x' ih =>
    cases x' with
    | nil => trivial
    | cons b x'' =>
      refine ⟨h.1, ih ?_⟩
      exact pairsOK_tail h

theorem pairsOK_dropWhile {R : Char → Char → Prop} {p : Char → Bool} {s : List Char}
    (h : pairsOK R s) : pairsOK R (List.dropWhile p s) := by
  induction s with
  | nil => simpa using h
  | cons c r ih =>
    rw [List.dropWhile_cons]
    split
    · exact ih (pairsOK_tail h)
    · exact h

theorem rdropWhile_prefix (p : Char → Bool) (l : List Char) :
    ∃ t, l = rdropWhile p l ++ t := by
  induction l with
  | nil => exact ⟨[], rfl⟩
  | cons c r ih =>
    rcases ih with ⟨t, ht⟩
    simp only [rdropWhile]
    split
    · exact ⟨c :: r, rfl⟩
    · exact ⟨t, by rw [List.cons_append, ← ht]⟩

theorem pairsOK_rdropWhile {R : Char → Char → Prop} {p : Char → Bool} {s : List Char}
    (h : pairsOK R s) : pairsOK R (rdropWhile p s) := by
  rcases rdropWhile_prefix p s with ⟨t, ht⟩
  rw [ht] at h
  exact pairsOK_of_prefix h

theorem pairsOK_pyStrip {R : Char → Char → Prop} {s : List Char}
    (h : pairsOK R s) : pairsOK R (pyStrip s) :=
  pairsOK_rdropWhile (pairsOK_dropWhile h)

theorem pairsOK_of_mem_right {R : Char → Char → Prop} {s : List Char}
    (h : ∀ b ∈ s, ∀ a, R a b) : pairsOK R s := by
  induction s with
  | nil => trivial
  | cons c r ih =>
    apply pairsOK_cons
    · intro b hb
      exact h b (List.mem_cons_of_mem c (head?_eq_mem hb)) c
    · exact ih (fun b hb a => h b (List.mem_cons_of_mem c hb) a)

/-- A pattern of two characters occurring in a list is an adjacent pair. -/
theorem containsSeq_pair {R : Char → Char → Prop} {u v : Char} {s : List Char}
    (h : containsSeq [u, v] s = true) (hp : pairsOK R s) : R u v := by
  induction s with
  | nil => simp [containsSeq] at h
  | cons c r ih =>
    simp only [containsSeq, Bool.or_eq_true] at h
    rcases h with h1 | h2
    · cases r with
      | nil => simp [startsWithSeq] at h1
      | cons d r' =>
        simp only [startsWithSeq, Bool.and_eq_true, beq_iff_eq] at h1
        rcases h1 with ⟨hc, hd, _⟩
        subst hc; subst hd
        exact pairsOK_head hp
    · exact ih h2 (pairsOK_tail hp)

/-- A three-character occurrence yields the occurrence of its first two
characters. -/
theorem containsSeq_triple_pair {a b c3 : Char} {s : List Char}
    (h : containsSeq [a, b, c3] s = true) : containsSeq [a, b] s = true := by
  induction s with
  | nil => simp [containsSeq] at h
  | cons c r ih =>
    simp only [containsSeq, Bool.or_eq_true] at h ⊢
    rcases h with h1 | h2
    · left
      cases r with
      | nil => simp [startsWithSeq] at h1
      | cons d r' =>
        cases r' with
        | nil => simp [startsWithSeq] at h1
        | cons e r'' =>
          simp only [startsWithSeq, Bool.and_eq_true, beq_iff_eq] at h1 ⊢
          exact ⟨h1.1, h1.2.1, trivial⟩
    · right
      exact ih h2

theorem joinNl_head?_eq {l : List Char} (t : List (List Char)) (h : l ≠ []) :
    (joinNl (l :: t)).head? = l.head? := by
  cases t with
  | nil => rfl
  | cons l2 t' =>
    cases l with
    | nil => exact absurd rfl h
    | cons c l'' => rfl

/-- Adjacent pairs of a newline join: pairs inside a part, a part's last
character against the separating newline, and the separating newline
against the next part's first character. -/
theorem pairsOK_joinNl {R : Char → Char → Prop} {ls : List (List Char)}
    (hne : ∀ l ∈ ls, l ≠ [])
    (hl : ∀ l ∈ ls, pairsOK R l)
    (hlast : ∀ l ∈ ls, ∀ a, l.getLast? = some a → R a nl)
    (hhead : ∀ l ∈ ls, ∀ b, l.head? = some b → R nl b) :
    pairsOK R (joinNl ls) := by
  induction ls with
  | nil => trivial
  | cons l rest ih =>
    cases rest with
    | nil => exact hl l (List.mem_cons_self l [])
    | cons l2 t =>
      have hstep : joinNl (l :: l2 :: t) = l ++ nl :: joinNl (l2 :: t) := rfl
      rw [hstep]
      have hmem : ∀ x ∈ l2 :: t, x ∈ l :: l2 :: t :=
        fun x hx => List.mem_cons_of_mem l hx
      have hy : pairsOK R (nl :: joinNl (l2 :: t)) := by
        apply pairsOK_cons
        · intro b hb
          rw [joinNl_head?_eq t (hne l2 (hmem l2 (List.mem_cons_self l2 t)))] at hb
          exact hhead l2 (hmem l2 (List.mem_cons_self l2 t)) b hb
        · exact ih (fun x hx => hne x (hmem x hx)) (fun x hx => hl x (hmem x hx))
            (fun x hx => hlast x (hmem x hx)) (fun x hx => hhead x (hmem x hx))
      apply pairsOK_append (hl l (List.mem_cons_self l (l2 :: t))) hy
      intro a b hlast' hhead'
      simp only [List.head?_cons, Option.some.injEq] at hhead'
      subst hhead'
      exact hlast l (List.mem_cons_self l (l2 :: t)) a hlast'

theorem keepLine_ne_nil {ml : Nat} {l : List Char} (h : keepLine ml l = true) :
    l ≠ [] := by
  intro he
  subst he
  simp [keepLine, pyStrip] at h
  exact h.1 rfl

/-- The output of remove_empty_lines followed by a strip never contains
two adjacent newlines: the survivors of the line filter are nonempty and
newline-free, and they are joined by single newlines. -/
theorem no_double_nl_remove_empty (ml : Nat) (u : List Char) :
    containsSeq [nl, nl] (pyStrip (remove_empty_lines ml u)) = false := by
  cases hc : containsSeq [nl, nl] (pyStrip (remove_empty_lines ml u)) with
  | false => rfl
  | true =>
    exfalso
    have hfilter : ∀ l ∈ (splitNl u).filter (keepLine ml), l ≠ [] ∧ nl ∉ l := by
      intro l hlmem
      rcases List.mem_filter.mp hlmem with ⟨hmem, hkeep⟩
      exact ⟨keepLine_ne_nil hkeep, mem_splitNl_no_nl hmem⟩
    have hjoin : pairsOK (fun a b => ¬(a = nl ∧ b = nl)) (remove_empty_lines ml u) := by
      unfold remove_empty_lines
      apply pairsOK_joinNl
      · exact fun l hl => (hfilter l hl).1
      · intro l hl
        apply pairsOK_of_mem_right
        intro b hb a hab
        exact (hfilter l hl).2 (hab.2 ▸ hb)
      · intro l hl a ha hab
        exact (hfilter l hl).2 (hab.1 ▸ getLast?_eq_mem ha)
      · intro l hl b hb hab
        exact (hfilter l hl).2 (hab.2 ▸ head?_eq_mem hb)
    have hstrip := pairsOK_pyStrip hjoin
    exact containsSeq_pair hc hstrip ⟨rfl, rfl⟩

/-- Shared form of the no-blank-line fact for the whole pipeline. -/
theorem no_double_nl_preprocess (pp : Bool) (ml : Nat) (x : List Char) :
    containsSeq [nl, nl] (preprocess_text pp ml x) = false := by
  unfold preprocess_text
  exact no_double_nl_remove_empty ml _

/-! ## Claim C9 -/

/-- C9: under every configuration the final output contains no occurrence
of two consecutive newlines: remove_empty_lines drops every line that is
empty after stripping and rejoins the survivors with single newlines as
the last line-structure stage, so no paragraph separation survives even
with preserve_paragraphs set. -/
theorem c9_no_blank_line_survives :
    ∀ (preserve_paragraphs : Bool) (min_line_length : Nat) (x : List Char),
      containsSeq [nl, nl] (preprocess_text preserve_paragraphs min_line_length x) = false :=
  fun pp ml x => no_double_nl_preprocess pp ml x

/-! ## Claim C5 -/

/-- C5: with preserve_paragraphs the output never contains three or more
consecutive newlines, and without it never two or more.  Both hold, a
fortiori, because no output ever contains even two consecutive newlines. -/
theorem c5_paragraph_collapse_invariant :
    ∀ (min_line_length : Nat) (x : List Char),
      containsSeq [nl, nl, nl] (preprocess_text true min_line_length x) = false ∧
      containsSeq [nl, nl] (preprocess_text false min_line_length x) = false := by
  intro ml x
  refine ⟨?_, no_double_nl_preprocess false ml x⟩
  cases h : containsSeq [nl, nl, nl] (preprocess_text true ml x) with
  | false => rfl
  | true =>
    have h2 := containsSeq_triple_pair h
    have h3 := no_double_nl_preprocess true ml x
    rw [h2] at h3
    exact Bool.noConfusion h3

/-! ## Toolkit: strips commute and are idempotent -/

theorem dropWhile_idem (p : Char → Bool) (l : List Char) :
    List.dropWhile p (List.dropWhile p l) = List.dropWhile p l := by
  induction l with
  | nil => rfl
  | cons c r ih =>
    rw [List.dropWhile_cons]
    split
    · exact ih
    · rename_i hpc
      rw [List.dropWhile_cons]
      simp only [hpc]
      simp

theorem rdropWhile_eq_nil_all {p : Char → Bool} {l : List Char}
    (h : rdropWhile p l = []) : ∀ x ∈ l, p x = true := by
  induction l with
  | nil => simp
  | cons c r ih =>
    simp only [rdropWhile] at h
    split at h
    · rename_i hcond
      simp only [List.isEmpty_iff, Bool.and_eq_true] at hcond
      intro x hx
      rcases List.mem_cons.mp hx with h1 | h2
      · subst h1; exact hcond.2
      · exact ih hcond.1 x h2
    · exact absurd h (by simp)

theorem rdropWhile_nil_of_all {p : Char → Bool} {l : List Char}
    (h : ∀ x ∈ l, p x = true) : rdropWhile p l = [] := by
  induction l with
  | nil => rfl
  | cons c r ih =>
    simp only [rdropWhile]
    have hr : rdropWhile p r = [] := ih (fun x hx => h x (List.mem_cons_of_mem c hx))
    rw [hr]
    simp [h c (List.mem_cons_self c r)]

theorem dropWhile_nil_of_all {p : Char → Bool} {l : List Char}
    (h : ∀ x ∈ l, p x = true) : List.dropWhile p l = [] := by
  induction l with
  | nil => rfl
  | cons c r ih =>
    rw [List.dropWhile_cons]
    simp only [h c (List.mem_cons_self c r), if_true]
    exact ih (fun x hx => h x (List.mem_cons_of_mem c hx))

theorem rdropWhile_idem (p : Char → Bool) (l : List Char) :
    rdropWhile p (rdropWhile p l) = rdropWhile p l := by
  induction l with
  | nil => rfl
  | cons c r ih =>
    simp only [rdropWhile]
    split
    · rfl
    · rename_i hcond
      simp only [rdropWhile, ih]
      split
      · rename_i hcond2
        exact absurd hcond2 hcond
      · rfl

theorem mem_rdropWhile_sub {p : Char → Bool} {l : List Char} {x : Char}
    (h : x ∈ rdropWhile p l) : x ∈ l := by
  rcases rdropWhile_prefix p l with ⟨t, ht⟩
  rw [ht]
  exact List.mem_append_left t h

theorem dropWhile_rdropWhile_comm (p : Char → Bool) (l : List Char) :
    List.dropWhile p (rdropWhile p l) = rdropWhile p (List.dropWhile p l) := by
  induction l with
  | nil => rfl
  | cons c r ih =>
    by_cases hpc : p c = true
    · simp only [rdropWhile]
      split
      · rename_i hcond
        simp only [List.isEmpty_iff, Bool.and_eq_true] at hcond
        rw [List.dropWhile_nil]
        rw [List.dropWhile_cons]
        simp only [hpc, if_true]
        have : ∀ x ∈ r, p x = true := rdropWhile_eq_nil_all hcond.1
        rw [dropWhile_nil_of_all this]
        rfl
      · rename_i hcond
        rw [List.dropWhile_cons]
        simp only [hpc, if_true]
        rw [List.dropWhile_cons]
        simp only [hpc, if_true]
        exact ih
    · have hpc' : p c = false := by
        cases hv : p c
        · rfl
        · exact absurd hv hpc
      simp only [rdropWhile]
      split
      · rename_i hcond
        simp only [List.isEmpty_iff, Bool.and_eq_true] at hcond
        rw [hcond.2] at hpc'
        exact Bool.noConfusion hpc'
      · rename_i hcond
        rw [List.dropWhile_cons]
        simp only [hpc', if_false, Bool.false_eq_true]
        rw [List.dropWhile_cons]
        simp only [hpc', if_false, Bool.false_eq_true]
        simp only [rdropWhile]
        rw [if_neg hcond]

theorem pyStrip_idem (s : List Char) : pyStrip (pyStrip s) = pyStrip s := by
  unfold pyStrip
  rw [dropWhile_rdropWhile_comm, dropWhile_idem, rdropWhile_idem]

theorem pyStrip_dropWhile (l : List Char) :
    pyStrip (List.dropWhile isPySpaceB l) = pyStrip l := by
  unfold pyStrip
  rw [dropWhile_idem]

theorem pyStrip_rdropWhile (l : List Char) :
    pyStrip (rdropWhile isPySpaceB l) = pyStrip l := by
  unfold pyStrip
  rw [dropWhile_rdropWhile_comm, rdropWhile_idem]

theorem pyStrip_nil_of_all {l : List Char}
    (h : ∀ x ∈ l, isPySpaceB x = true) : pyStrip l = [] := by
  unfold pyStrip
  rw [dropWhile_nil_of_all h]
  rfl

theorem exists_nonws_of_pyStrip_ne_nil {l : List Char} (h : pyStrip l ≠ []) :
    ∃ x ∈ l, isPySpaceB x = false := by
  by_contra hc
  push_neg at hc
  apply h
  apply pyStrip_nil_of_all
  intro x hx
  cases hv : isPySpaceB x
  · exact absurd hv (hc x hx)
  · rfl

theorem dropWhile_append_nonws {l y : List Char}
    (h : ∃ x ∈ l, isPySpaceB x = false) :
    List.dropWhile isPySpaceB (l ++ y) = List.dropWhile isPySpaceB l ++ y := by
  induction l with
  | nil =>
    rcases h with ⟨x, hx, _⟩
    simp at hx
  | cons c r ih =>
    rw [List.cons_append, List.dropWhile_cons, List.dropWhile_cons]
    cases hv : isPySpaceB c with
    | true =>
      simp only [if_true]
      apply ih
      rcases h with ⟨x, hx, hxf⟩
      rcases List.mem_cons.mp hx with h1 | h2
      · subst h1; rw [hv] at hxf; exact Bool.noConfusion hxf
      · exact ⟨x, h2, hxf⟩
    | false => simp

theorem rdropWhile_ne_nil_of_nonws {p : Char → Bool} {y : List Char}
    (h : ∃ x ∈ y, p x = false) : rdropWhile p y ≠ [] := by
  intro hnil
  rcases h with ⟨x, hx, hxf⟩
  have := rdropWhile_eq_nil_all hnil x hx
  rw [this] at hxf
  exact Bool.noConfusion hxf

theorem rdropWhile_append_nonws {p : Char → Bool} {l y : List Char}
    (h : ∃ x ∈ y, p x = false) :
    rdropWhile p (l ++ y) = l ++ rdropWhile p y := by
  induction l with
  | nil => rfl
  | cons c r ih =>
    rw [List.cons_append]
    simp only [rdropWhile]
    rw [ih]
    have hne : rdropWhile p y ≠ [] := rdropWhile_ne_nil_of_nonws h
    have hne2 : (r ++ rdropWhile p y).isEmpty = false := by
      cases hr : r ++ rdropWhile p y with
      | nil =>
        rcases List.append_eq_nil.mp hr with ⟨_, h2⟩
        exact absurd h2 hne
      | cons a t => rfl
    rw [hne2]
    simp

theorem mem_joinNl_head {x : Char} {l : List Char} (t : List (List Char))
    (h : x ∈ l) : x ∈ joinNl (l :: t) := by
  cases t with
  | nil => exact h
  | cons l2 t' => exact List.mem_append_left _ h

theorem mem_dropWhile_sub {p : Char → Bool} {l : List Char} {x : Char}
    (h : x ∈ List.dropWhile p l) : x ∈ l := by
  have hsplit : List.takeWhile p l ++ List.dropWhile p l = l :=
    List.takeWhile_append_dropWhile p l
  rw [← hsplit]
  exact List.mem_append_right _ h

/-- Lines of a right-stripped join: the right strip stays inside the last
part (which contains non-whitespace), so every line is one of the parts up
to stripping. -/
theorem lines_rdrop_joinNl {ls : List (List Char)} (hne : ls ≠ [])
    (hl : ∀ l ∈ ls, nl ∉ l ∧ pyStrip l ≠ []) :
    ∀ l' ∈ splitNl (rdropWhile isPySpaceB (joinNl ls)),
      ∃ l0 ∈ ls, pyStrip l' = pyStrip l0 := by
  induction ls with
  | nil => exact absurd rfl hne
  | cons l rest ih =>
    cases rest with
    | nil =>
      intro l' hl'
      have hnl : nl ∉ rdropWhile isPySpaceB l := by
        intro hmem
        exact (hl l (List.mem_cons_self l [])).1 (mem_rdropWhile_sub hmem)
      have hjoin : joinNl [l] = l := rfl
      rw [hjoin, splitNl_of_no_nl hnl] at hl'
      rcases List.mem_cons.mp hl' with h1 | h2
      · subst h1
        exact ⟨l, List.mem_cons_self l [], pyStrip_rdropWhile l⟩
      · simp at h2
    | cons l2 t =>
      intro l' hl'
      have hmeml2 : l2 ∈ l :: l2 :: t := List.mem_cons_of_mem l (List.mem_cons_self l2 t)
      have hJnonws : ∃ x ∈ joinNl (l2 :: t), isPySpaceB x = false := by
        rcases exists_nonws_of_pyStrip_ne_nil (hl l2 hmeml2).2 with ⟨x, hx, hxf⟩
        exact ⟨x, mem_joinNl_head t hx, hxf⟩
      have hCnonws : ∃ x ∈ nl :: joinNl (l2 :: t), isPySpaceB x = false := by
        rcases hJnonws with ⟨x, hx, hxf⟩
        exact ⟨x, List.mem_cons_of_mem nl hx, hxf⟩
      have hjoin : joinNl (l :: l2 :: t) = l ++ nl :: joinNl (l2 :: t) := rfl
      rw [hjoin, rdropWhile_append_nonws hCnonws] at hl'
      have hnlstep : (nl :: joinNl (l2 :: t)) = [nl] ++ joinNl (l2 :: t) := rfl
      rw [hnlstep, rdropWhile_append_nonws hJnonws] at hl'
      have hl0 : nl ∉ l := (hl l (List.mem_cons_self l (l2 :: t))).1
      simp only [List.singleton_append] at hl'
      rw [splitNl_append_cons hl0] at hl'
      rcases List.mem_cons.mp hl' with h1 | h2
      · exact ⟨l, List.mem_cons_self l (l2 :: t), by rw [h1]⟩
      · rcases ih (by simp) (fun x hx => hl x (List.mem_cons_of_mem l hx)) l' h2 with
          ⟨l0, hl0mem, heq⟩
        exact ⟨l0, List.mem_cons_of_mem l hl0mem, heq⟩

/-- Lines of the full strip of a join of newline-free parts each
containing non-whitespace: every line equals one of the parts up to
stripping. -/
theorem lines_pyStrip_joinNl {ls : List (List Char)} (hne : ls ≠ [])
    (hl : ∀ l ∈ ls, nl ∉ l ∧ pyStrip l ≠ []) :
    ∀ l' ∈ splitNl (pyStrip (joinNl ls)),
      ∃ l0 ∈ ls, pyStrip l' = pyStrip l0 := by
  cases ls with
  | nil => exact absurd rfl hne
  | cons l rest =>
    cases rest with
    | nil =>
      intro l' hl'
      have hjoin : joinNl [l] = l := rfl
      have hnl : nl ∉ pyStrip l := by
        intro hmem
        apply (hl l (List.mem_cons_self l [])).1
        unfold pyStrip at hmem
        have := mem_rdropWhile_sub hmem
        exact mem_dropWhile_sub this
      rw [hjoin, splitNl_of_no_nl hnl] at hl'
      rcases List.mem_cons.mp hl' with h1 | h2
      · subst h1
        exact ⟨l, List.mem_cons_self l [], pyStrip_idem l⟩
      · simp at h2
    | cons l2 t =>
      intro l' hl'
      have hlnonws : ∃ x ∈ l, isPySpaceB x = false :=
        exists_nonws_of_pyStrip_ne_nil (hl l (List.mem_cons_self l (l2 :: t))).2
      have hjoin : joinNl (l :: l2 :: t) = l ++ nl :: joinNl (l2 :: t) := rfl
      unfold pyStrip at hl'
      rw [hjoin, dropWhile_append_nonws hlnonws] at hl'
      set dl := List.dropWhile isPySpaceB l with hdl
      have hjoin2 : dl ++ nl :: joinNl (l2 :: t) = joinNl (dl :: l2 :: t) := rfl
      rw [hjoin2] at hl'
      have hhyp : ∀ x ∈ dl :: l2 :: t, nl ∉ x ∧ pyStrip x ≠ [] := by
        intro x hx
        rcases List.mem_cons.mp hx with h1 | h2
        · subst h1
          constructor
          · intro hmem
            exact (hl l (List.mem_cons_self l (l2 :: t))).1 (mem_dropWhile_sub hmem)
          · rw [hdl, pyStrip_dropWhile]
            exact (hl l (List.mem_cons_self l (l2 :: t))).2
        · exact hl x (List.mem_cons_of_mem l h2)
      rcases lines_rdrop_joinNl (by simp) hhyp l' hl' with ⟨l0, hl0mem, heq⟩
      rcases List.mem_cons.mp hl0mem with h1 | h2
      · subst h1
        refine ⟨l, List.mem_cons_self l (l2 :: t), ?_⟩
        rw [heq, hdl, pyStrip_dropWhile]
      · exact ⟨l0, List.mem_cons_of_mem l h2, heq⟩

/-- Claim C6's output predicate: every nonempty line is at least
min_line_length long after stripping. -/
def linesMeetMin (min_line_length : Nat) (s : List Char) : Bool :=
  (splitNl s).all (fun l => l.isEmpty || Nat.ble min_line_length (pyStrip l).length)

theorem linesMeetMin_remove_empty (ml : Nat) (u : List Char) :
    linesMeetMin ml (pyStrip (remove_empty_lines ml u)) = true := by
  unfold remove_empty_lines
  rcases hf : (splitNl u).filter (keepLine ml) with _ | ⟨f, fs⟩
  · have hjoin : joinNl [] = ([] : List Char) := rfl
    rw [hjoin]
    rfl
  · rw [linesMeetMin, List.all_eq_true]
    intro l hlmem
    have hhyp : ∀ x ∈ f :: fs, nl ∉ x ∧ pyStrip x ≠ [] := by
      intro x hx
      rw [← hf] at hx
      rcases List.mem_filter.mp hx with ⟨hmem, hkeep⟩
      simp only [keepLine, Bool.and_eq_true, Bool.not_eq_true'] at hkeep
      refine ⟨mem_splitNl_no_nl hmem, ?_⟩
      intro hn
      rw [hn] at hkeep
      simp [pyStrip, rdropWhile] at hkeep
    rcases lines_pyStrip_joinNl (by simp) hhyp l hlmem with ⟨l0, hl0mem, heq⟩
    have hkeep : keepLine ml l0 = true := by
      rw [← hf] at hl0mem
      exact (List.mem_filter.mp hl0mem).2
    simp only [keepLine, Bool.and_eq_true] at hkeep
    simp only [Bool.or_eq_true]
    right
    rw [heq]
    exact hkeep.2

/-! ## Claim C6 -/

/-- C6: for every input and every configuration, every nonempty line of
the final output has stripped length at least min_line_length: the line
filter enforces it, the join and the final strip leave every surviving
line intact up to stripping. -/
theorem c6_line_length_invariant :
    ∀ (preserve_paragraphs : Bool) (min_line_length : Nat) (x : List Char),
      linesMeetMin min_line_length
        (preprocess_text preserve_paragraphs min_line_length x) = true := by
  intro pp ml x
  unfold preprocess_text
  exact linesMeetMin_remove_empty ml _

/-! ## Claim C10: the preserve_paragraphs flag cannot matter -/

/-- Collapsing newline runs to single newlines first does not change the
replacement of newline runs by spaces: the run states correspond. -/
theorem nlPlus_collapseNl2 (t : List Char) :
    ∀ b : Bool, nlPlusToSpaceGo b (collapseNl2Go b t) = nlPlusToSpaceGo b t := by
  induction t with
  | nil => intro b; rfl
  | cons c r ih =>
    intro b
    by_cases hc : c = nl
    · subst hc
      cases b with
      | false =>
        have e1 : collapseNl2Go false (nl :: r) = nl :: collapseNl2Go true r := by
          simp [collapseNl2Go]
        have e2 : ∀ y, nlPlusToSpaceGo false (nl :: y) = spc :: nlPlusToSpaceGo true y := by
          intro y; simp [nlPlusToSpaceGo]
        rw [e1, e2, e2, ih true]
      | true =>
        have e1 : collapseNl2Go true (nl :: r) = collapseNl2Go true r := by
          simp [collapseNl2Go]
        have e2 : ∀ y, nlPlusToSpaceGo true (nl :: y) = nlPlusToSpaceGo true y := by
          intro y; simp [nlPlusToSpaceGo]
        rw [e1, e2, ih true]
    · have e1 : ∀ b' : Bool, collapseNl2Go b' (c :: r) = c :: collapseNl2Go false r := by
        intro b'; simp [collapseNl2Go, hc]
      have e2 : ∀ (b' : Bool) (y : List Char),
          nlPlusToSpaceGo b' (c :: y) = c :: nlPlusToSpaceGo false y := by
        intro b' y; simp [nlPlusToSpaceGo, hc]
      rw [e1, e2, e2, ih false]

/-- Same for the three-to-two collapse: a positive counter corresponds to
being inside a run. -/
theorem nlPlus_collapseNl3 (t : List Char) :
    ∀ k : Nat, nlPlusToSpaceGo (k != 0) (collapseNl3Go k t) = nlPlusToSpaceGo (k != 0) t := by
  induction t with
  | nil => intro k; rfl
  | cons c r ih =>
    intro k
    by_cases hc : c = nl
    · subst hc
      have e2t : ∀ y, nlPlusToSpaceGo true (nl :: y) = nlPlusToSpaceGo true y := by
        intro y; simp [nlPlusToSpaceGo]
      have e2f : ∀ y, nlPlusToSpaceGo false (nl :: y) = spc :: nlPlusToSpaceGo true y := by
        intro y; simp [nlPlusToSpaceGo]
      by_cases hk : k < 2
      · have e1 : collapseNl3Go k (nl :: r) = nl :: collapseNl3Go (k + 1) r := by
          simp [collapseNl3Go, hk]
        rw [e1]
        cases k with
        | zero =>
          rw [show ((0 : Nat) != 0) = false from rfl]
          rw [e2f, e2f]
          have h1 := ih 1
          rw [show ((1 : Nat) != 0) = true from rfl] at h1
          rw [h1]
        | succ k' =>
          rw [show ((k' + 1 : Nat) != 0) = true from rfl]
          rw [e2t, e2t]
          have h1 := ih (k' + 1 + 1)
          rw [show ((k' + 1 + 1 : Nat) != 0) = true from rfl] at h1
          rw [h1]
      · have e1 : collapseNl3Go k (nl :: r) = collapseNl3Go k r := by
          simp [collapseNl3Go, hk]
        have hkpos : (k != 0) = true := by
          cases k with
          | zero => omega
          | succ k' => rfl
        rw [e1, hkpos]
        have h1 := ih k
        rw [hkpos] at h1
        rw [h1, e2t]
    · have e1 : collapseNl3Go k (c :: r) = c :: collapseNl3Go 0 r := by
        simp [collapseNl3Go, hc]
      have e2 : ∀ (b' : Bool) (y : List Char),
          nlPlusToSpaceGo b' (c :: y) = c :: nlPlusToSpaceGo false y := by
        intro b' y; simp [nlPlusToSpaceGo, hc]
      rw [e1, e2, e2]
      have h1 := ih 0
      rw [show ((0 : Nat) != 0) = false from rfl] at h1
      rw [h1]

theorem nlPlusToSpace_collapseNl3 (t : List Char) :
    nlPlusToSpace (collapseNl3 t) = nlPlusToSpace t :=
  nlPlus_collapseNl3 t 0

theorem nlPlusToSpace_collapseNl2 (t : List Char) :
    nlPlusToSpace (collapseNl2 t) = nlPlusToSpace t :=
  nlPlus_collapseNl2 t false

/-- C10: the pipeline's output is identical under both flag values: the
only stage reading preserve_paragraphs only changes the lengths of newline
runs, and the following stage maps every newline run to one space. -/
theorem c10_preserve_paragraphs_irrelevant :
    ∀ (min_line_length : Nat) (x : List Char),
      preprocess_text true min_line_length x = preprocess_text false min_line_length x := by
  intro ml x
  unfold preprocess_text remove_excessive_newlines
  rw [if_pos rfl, if_neg (by simp : ¬(false = true))]
  unfold remove_mid_sentence_newlines
  rw [show nlPlusToSpace (collapseNl3 (normalize_whitespace (clean_special_characters
      (fix_common_encoding_issues (remove_control_characters (normalize_unicode x)))))) =
    nlPlusToSpace (normalize_whitespace (clean_special_characters
      (fix_common_encoding_issues (remove_control_characters (normalize_unicode x)))))
    from nlPlusToSpace_collapseNl3 _]
  rw [show nlPlusToSpace (collapseNl2 (normalize_whitespace (clean_special_characters
      (fix_common_encoding_issues (remove_control_characters (normalize_unicode x)))))) =
    nlPlusToSpace (normalize_whitespace (clean_special_characters
      (fix_common_encoding_issues (remove_control_characters (normalize_unicode x)))))
    from nlPlusToSpace_collapseNl2 _]

/-! ## Toolkit: more adjacent-pair lemmas -/

theorem pairsOK_mono {R S : Char → Char → Prop} (h : ∀ a b, R a b → S a b) :
    ∀ {s : List Char}, pairsOK R s → pairsOK S s := by
  intro s
  induction s with
  | nil => intro _; trivial
  | cons c r ih =>
    intro hp
    cases r with
    | nil => trivial
    | cons d t => exact ⟨h c d hp.1, ih hp.2⟩

theorem pairsOK_of_suffix {R : Char → Char → Prop} {x y : List Char}
    (h : pairsOK R (x ++ y)) : pairsOK R y := by
  induction x with
  | nil => simpa using h
  | cons a x' ih => exact ih (pairsOK_tail h)

theorem pairs_append_boundary {R : Char → Char → Prop} {x y : List Char}
    (h : pairsOK R (x ++ y)) :
    ∀ a b, x.getLast? = some a → y.head? = some b → R a b := by
  induction x with
  | nil => intro a b ha _; simp at ha
  | cons c x' ih =>
    intro a b ha hb
    cases x' with
    | nil =>
      simp only [List.getLast?_singleton, Option.some.injEq] at ha
      subst ha
      cases y with
      | nil => simp at hb
      | cons d t =>
        simp only [List.head?_cons, Option.some.injEq] at hb
        subst hb
        exact pairsOK_head h
    | cons e x'' =>
      rw [List.getLast?_cons_cons] at ha
      exact ih (pairsOK_tail h) a b ha hb

/-! ## Invariants of the re-segmentation scanners -/

/-- The whitespace collapse never emits a newline. -/
theorem wsPlus_no_nl (y : List Char) : ∀ b : Bool, nl ∉ wsPlusToSpaceGo b y := by
  induction y with
  | nil => intro b; simp [wsPlusToSpaceGo]
  | cons c r ih =>
    intro b
    by_cases hw : isPySpaceB c = true
    · simp only [wsPlusToSpaceGo, hw, if_true]
      cases b with
      | true => exact ih true
      | false =>
        intro hmem
        rcases List.mem_cons.mp hmem with h1 | h2
        · exact absurd h1.symm (by decide)
        · exact ih true h2
    · have hw' : isPySpaceB c = false := by
        cases hv : isPySpaceB c
        · rfl
        · exact absurd hv hw
      simp only [wsPlusToSpaceGo, hw', Bool.false_eq_true, if_false]
      intro hmem
      rcases List.mem_cons.mp hmem with h1 | h2
      · rw [← h1] at hw'
        revert hw'
        decide
      · exact ih false h2

/-- The whitespace collapse leaves no two adjacent whitespace characters,
and while inside a run the next emitted character is not whitespace. -/
theorem wsPlus_pairs (y : List Char) :
    ∀ b : Bool, pairsOK (fun a b2 => ¬(isPySpaceB a = true ∧ isPySpaceB b2 = true))
        (wsPlusToSpaceGo b y) ∧
      (∀ cf, (wsPlusToSpaceGo true y).head? = some cf → isPySpaceB cf = false) := by
  induction y with
  | nil => intro b; exact ⟨trivial, by intro cf h; simp [wsPlusToSpaceGo] at h⟩
  | cons c r ih =>
    intro b
    by_cases hw : isPySpaceB c = true
    · constructor
      · simp only [wsPlusToSpaceGo, hw, if_true]
        cases b with
        | true => exact (ih true).1
        | false =>
          apply pairsOK_cons
          · intro b2 hb2
            have := (ih true).2 b2 hb2
            intro hcon
            rw [this] at hcon
            exact Bool.noConfusion hcon.2
          · exact (ih true).1
      · intro cf hcf
        simp only [wsPlusToSpaceGo, hw, if_true] at hcf
        exact (ih true).2 cf hcf
    · have hw' : isPySpaceB c = false := by
        cases hv : isPySpaceB c
        · rfl
        · exact absurd hv hw
      constructor
      · simp only [wsPlusToSpaceGo, hw', Bool.false_eq_true, if_false]
        apply pairsOK_cons
        · intro b2 _
          intro hcon
          rw [hw'] at hcon
          exact Bool.noConfusion hcon.1
        · exact (ih false).1
      · intro cf hcf
        simp only [wsPlusToSpaceGo, hw', Bool.false_eq_true, if_false, List.head?_cons,
          Option.some.injEq] at hcf
        rw [← hcf]
        exact hw'

theorem dropWhile_head_false {p : Char → Bool} {u : List Char} {b : Char}
    (h : (List.dropWhile p u).head? = some b) : p b = false := by
  induction u with
  | nil => simp at h
  | cons c r ih =>
    rw [List.dropWhile_cons] at h
    split at h
    · exact ih h
    · rename_i hpc
      simp only [List.head?_cons, Option.some.injEq] at h
      rw [← h]
      cases hv : p c
      · rfl
      · exact absurd hv hpc

theorem rdropWhile_getLast_false {p : Char → Bool} {u : List Char} {a : Char}
    (h : (rdropWhile p u).getLast? = some a) : p a = false := by
  induction u with
  | nil => simp [rdropWhile] at h
  | cons c r ih =>
    simp only [rdropWhile] at h
    split at h
    · simp at h
    · rename_i hcond
      cases hv : rdropWhile p r with
      | nil =>
        rw [hv] at h hcond
        simp only [List.getLast?_singleton, Option.some.injEq] at h
        rw [← h]
        simp only [List.isEmpty_nil, Bool.true_and] at hcond
        cases hp : p c
        · rfl
        · exact absurd hp hcond
      | cons d t =>
        rw [hv] at h
        rw [List.getLast?_cons_cons] at h
        rw [← hv] at h
        exact ih h

theorem mem_pyStrip_sub {s : List Char} {x : Char} (h : x ∈ pyStrip s) : x ∈ s := by
  unfold pyStrip at h
  exact mem_dropWhile_sub (mem_rdropWhile_sub h)

theorem punct_not_ws {c : Char} (h : punctB c = true) : isPySpaceB c = false := by
  simp only [punctB, Bool.or_eq_true, beq_iff_eq] at h
  rcases h with (((h | h) | h) | h) | h <;> rw [h] <;> decide

/-- The break scanner preserves the absence of adjacent whitespace pairs:
the inserted newline stands between a punctuation character and the first
character after the replaced whitespace run, and while a run is being
consumed the next emitted character is not whitespace. -/
theorem break_pairs (y : List Char) :
    ∀ st : Bool, pairsOK (fun a b => ¬(isPySpaceB a = true ∧ isPySpaceB b = true)) y →
      pairsOK (fun a b => ¬(isPySpaceB a = true ∧ isPySpaceB b = true)) (breakGo st y) ∧
      (∀ cf, (breakGo true y).head? = some cf → isPySpaceB cf = false) ∧
      (breakGo false y).head? = y.head? := by
  induction y with
  | nil =>
    intro st _
    refine ⟨trivial, ?_, rfl⟩
    intro cf h
    simp [breakGo] at h
  | cons c r ih =>
    intro st hp
    have ihr := ih
    by_cases hw : isPySpaceB c = true
    · have hskip : breakGo true (c :: r) = breakGo true r := by
        simp [breakGo, hw]
      have hpunct : punctB c = false := by
        cases hv : punctB c
        · rfl
        · rw [punct_not_ws hv] at hw; exact Bool.noConfusion hw
      have hfalse : breakGo false (c :: r) = c :: breakGo false r := by
        simp [breakGo, hw, hpunct]
      constructor
      · cases st with
        | true => rw [hskip]; exact (ihr true (pairsOK_tail hp)).1
        | false =>
          rw [hfalse]
          apply pairsOK_cons
          · intro b hb
            rw [(ihr false (pairsOK_tail hp)).2.2] at hb
            cases r with
            | nil => simp at hb
            | cons d t =>
              simp only [List.head?_cons, Option.some.injEq] at hb
              subst hb
              exact hp.1
          · exact (ihr false (pairsOK_tail hp)).1
      · constructor
        · intro cf hcf
          rw [hskip] at hcf
          exact (ihr true (pairsOK_tail hp)).2.1 cf hcf
        · rw [hfalse]; rfl
    · have hw' : isPySpaceB c = false := by
        cases hv : isPySpaceB c
        · rfl
        · exact absurd hv hw
      have hst : ∀ st2 : Bool, breakGo st2 (c :: r) = breakGo false (c :: r) := by
        intro st2
        cases st2 with
        | false => rfl
        | true =>
          simp only [breakGo]
          rw [hw']
          simp only [Bool.and_false, Bool.false_and]
      cases r with
      | nil =>
        have hout : breakGo false [c] = [c] := by
          simp [breakGo]
        refine ⟨?_, ?_, ?_⟩
        · rw [hst st, hout]
          exact pairsOK_single
        · intro cf hcf
          rw [hst true, hout] at hcf
          simp only [List.head?_cons, Option.some.injEq] at hcf
          rw [← hcf]
          exact hw'
        · rw [hout]
      | cons d t =>
        have hout : breakGo false (c :: d :: t) =
            if (punctB c && isPySpaceB d) = true then c :: nl :: breakGo true (d :: t)
            else c :: breakGo false (d :: t) := by
          simp only [breakGo, Bool.false_and, Bool.false_eq_true, if_false]
        by_cases hcond : (punctB c && isPySpaceB d) = true
        · rw [if_pos hcond] at hout
          refine ⟨?_, ?_, ?_⟩
          · rw [hst st, hout]
            apply pairsOK_cons
            · intro b hb
              simp only [List.head?_cons, Option.some.injEq] at hb
              rw [← hb]
              intro hcontra
              rw [hw'] at hcontra
              exact Bool.noConfusion hcontra.1
            · apply pairsOK_cons
              · intro b hb
                have := (ihr true (pairsOK_tail hp)).2.1 b hb
                intro hcontra
                rw [this] at hcontra
                exact Bool.noConfusion hcontra.2
              · exact (ihr true (pairsOK_tail hp)).1
          · intro cf hcf
            rw [hst true, hout] at hcf
            simp only [List.head?_cons, Option.some.injEq] at hcf
            rw [← hcf]
            exact hw'
          · rw [hout]
            rfl
        · rw [if_neg hcond] at hout
          refine ⟨?_, ?_, ?_⟩
          · rw [hst st, hout]
            apply pairsOK_cons
            · intro b hb
              rw [(ihr false (pairsOK_tail hp)).2.2] at hb
              simp only [List.head?_cons, Option.some.injEq] at hb
              rw [← hb]
              exact hp.1
            · exact (ihr false (pairsOK_tail hp)).1
          · intro cf hcf
            rw [hst true, hout] at hcf
            simp only [List.head?_cons, Option.some.injEq] at hcf
            rw [← hcf]
            exact hw'
          · rw [hout]
            rfl

/-- No two adjacent whitespace characters. -/
def noWsPair (a b : Char) : Prop := ¬(isPySpaceB a = true ∧ isPySpaceB b = true)

/-- Two adjacent whitespace characters can only be a doubled newline. -/
def wsPairNl (a b : Char) : Prop :=
  isPySpaceB a = true → isPySpaceB b = true → a = nl ∧ b = nl

theorem noWsPair_imp_wsPairNl (a b : Char) (h : noWsPair a b) : wsPairNl a b :=
  fun h1 h2 => absurd ⟨h1, h2⟩ h

theorem upper_not_ws {c : Char} (h : isUpperAsciiB c = true) : isPySpaceB c = false := by
  cases hv : isPySpaceB c
  · rfl
  · exfalso
    simp only [isUpperAsciiB, between, Bool.and_eq_true, Nat.ble_eq] at h
    simp only [isPySpaceB, between, Bool.or_eq_true, Bool.and_eq_true, Nat.ble_eq,
      beq_iff_eq] at hv
    omega

theorem takeWhile_append_drop_length (p : Char → Bool) (l : List Char) :
    List.takeWhile p l ++ List.drop (List.takeWhile p l).length l = l := by
  induction l with
  | nil => rfl
  | cons c r ih =>
    rw [List.takeWhile_cons]
    split
    · simp only [List.length_cons, List.drop_succ_cons, List.cons_append]
      rw [ih]
    · simp

/-- A successful paragraph-pattern match is a nonempty prefix of the text,
starting with the matched capital letter. -/
theorem capMatch_decomp {r m : List Char} (h : capMatch r = some m) :
    ∃ (cm : Char) (mrest rest : List Char),
      m = cm :: mrest ∧ isUpperAsciiB cm = true ∧ r = m ++ rest := by
  cases r with
  | nil => simp [capMatch] at h
  | cons c rt =>
    simp only [capMatch] at h
    split at h
    · rename_i hupper
      split at h
      · exact absurd h (by simp)
      · split at h
        · rename_i d r2 hdrop
          split at h
          · rename_i hspc
            split at h
            · exact absurd h (by simp)
            · split at h
              · rename_i e r3 hdrop2
                split at h
                · rename_i hcomma
                  simp only [Option.some.injEq] at h
                  subst hspc
                  subst hcomma
                  refine ⟨c, List.takeWhile isLowerAsciiB rt ++ spc ::
                    List.takeWhile isDigitB r2 ++ [','], r3, ?_, hupper, ?_⟩
                  · rw [← h]
                    simp
                  · rw [← h]
                    have h1' : List.takeWhile isLowerAsciiB rt ++ spc :: r2 = rt := by
                      have haux := takeWhile_append_drop_length isLowerAsciiB rt
                      rw [hdrop] at haux
                      exact haux
                    have h2' : List.takeWhile isDigitB r2 ++ ',' :: r3 = r2 := by
                      have haux := takeWhile_append_drop_length isDigitB r2
                      rw [hdrop2] at haux
                      exact haux
                    simp only [List.cons_append, List.append_assoc, List.singleton_append,
                      List.nil_append]
                    rw [h2', h1']
                · exact absurd h (by simp)
              · exact absurd h (by simp)
          · exact absurd h (by simp)
        · exact absurd h (by simp)
    · exact absurd h (by simp)

/-- A positive skip counter just drops that many characters. -/
theorem paraGo_append (x y : List Char) : paraGo x.length (x ++ y) = paraGo 0 y := by
  induction x with
  | nil => rfl
  | cons c x' ih =>
    have : (c :: x').length = x'.length + 1 := rfl
    rw [this]
    have hstep : paraGo (x'.length + 1) ((c :: x') ++ y) = paraGo x'.length (x' ++ y) := rfl
    rw [hstep, ih]

/-- The paragraph substitution maps text without adjacent whitespace to
text whose only adjacent whitespace pairs are doubled newlines, and never
changes the first character. -/
theorem para_pairs (n : Nat) : ∀ y : List Char, y.length ≤ n → pairsOK noWsPair y →
    pairsOK wsPairNl (paraGo 0 y) ∧ (paraGo 0 y).head? = y.head? := by
  induction n with
  | zero =>
    intro y hy _
    have : y = [] := List.length_eq_zero.mp (Nat.le_zero.mp hy)
    subst this
    exact ⟨trivial, rfl⟩
  | succ n ihn =>
    intro y hy hp
    cases y with
    | nil => exact ⟨trivial, rfl⟩
    | cons c r =>
      have hr : r.length ≤ n := by
        simp only [List.length_cons] at hy
        omega
      by_cases hc : c = nl
      · subst hc
        cases hcm : capMatch r with
        | none =>
          have e1 : paraGo 0 (nl :: r) = nl :: paraGo 0 r := by
            simp [paraGo, hcm]
          rw [e1]
          constructor
          · apply pairsOK_cons
            · intro b hb
              rw [(ihn r hr (pairsOK_tail hp)).2] at hb
              cases r with
              | nil => simp at hb
              | cons d t =>
                simp only [List.head?_cons, Option.some.injEq] at hb
                rw [← hb]
                exact noWsPair_imp_wsPairNl nl d hp.1
            · exact (ihn r hr (pairsOK_tail hp)).1
          · rfl
        | some m =>
          rcases capMatch_decomp hcm with ⟨cm, mrest, rest, hm, hupper, hsplit⟩
          have e1 : paraGo 0 (nl :: r) = nl :: nl :: m ++ paraGo m.length r := by
            simp [paraGo, hcm]
          have e2 : paraGo m.length r = paraGo 0 rest := by
            rw [hsplit]
            exact paraGo_append m rest
          rw [e1, e2]
          have hpr : pairsOK noWsPair r := pairsOK_tail hp
          have hprest : pairsOK noWsPair rest := by
            rw [hsplit] at hpr
            exact pairsOK_of_suffix hpr
          have hrest_len : rest.length ≤ n := by
            have : rest.length ≤ r.length := by
              rw [hsplit]
              simp
            omega
          have ihrest := ihn rest hrest_len hprest
          constructor
          · apply pairsOK_cons
            · intro b hb
              simp only [List.append_eq, List.cons_append, List.head?_cons,
                Option.some.injEq] at hb
              rw [← hb]
              intro _ _
              exact ⟨rfl, rfl⟩
            · apply pairsOK_cons
              · intro b hb
                rw [hm] at hb
                simp only [List.append_eq, List.cons_append, List.head?_cons,
                  Option.some.injEq] at hb
                rw [← hb]
                intro _ hws
                rw [upper_not_ws hupper] at hws
                exact absurd hws (by simp)
              · apply pairsOK_append
                · have : pairsOK noWsPair m := by
                    rw [hsplit] at hpr
                    exact pairsOK_of_prefix hpr
                  exact pairsOK_mono noWsPair_imp_wsPairNl this
                · exact ihrest.1
                · intro a b ha hb
                  rw [ihrest.2] at hb
                  apply noWsPair_imp_wsPairNl
                  rw [hsplit] at hpr
                  exact pairs_append_boundary hpr a b ha hb
          · rfl
      · have e1 : paraGo 0 (c :: r) = c :: paraGo 0 r := by
          simp [paraGo, hc]
        rw [e1]
        constructor
        · apply pairsOK_cons
          · intro b hb
            rw [(ihn r hr (pairsOK_tail hp)).2] at hb
            cases r with
            | nil => simp at hb
            | cons d t =>
              simp only [List.head?_cons, Option.some.injEq] at hb
              rw [← hb]
              exact noWsPair_imp_wsPairNl c d hp.1
          · exact (ihn r hr (pairsOK_tail hp)).1
        · rfl

/-- Every newline is immediately preceded by sentence punctuation. -/
def nlAfterPunct (a b : Char) : Prop := b = nl → punctB a = true

/-- After the break step, every newline follows punctuation, and the first
character is never a newline (newline-free input). -/
theorem break_nlAfterPunct (y : List Char) (hnl : nl ∉ y) :
    ∀ st : Bool, pairsOK nlAfterPunct (breakGo st y) ∧
      (∀ cf, (breakGo st y).head? = some cf → cf ≠ nl) := by
  induction y with
  | nil =>
    intro st
    refine ⟨trivial, ?_⟩
    intro cf h
    simp [breakGo] at h
  | cons c r ih =>
    intro st
    have hcnl : c ≠ nl := fun hcn => hnl (by rw [hcn]; exact List.mem_cons_self nl r)
    have hrnl : nl ∉ r := fun hm => hnl (List.mem_cons_of_mem c hm)
    have ihr := ih hrnl
    by_cases hw : isPySpaceB c = true
    · have hskip : breakGo true (c :: r) = breakGo true r := by
        simp [breakGo, hw]
      have hpunct : punctB c = false := by
        cases hv : punctB c
        · rfl
        · rw [punct_not_ws hv] at hw; exact Bool.noConfusion hw
      have hfalse : breakGo false (c :: r) = c :: breakGo false r := by
        simp [breakGo, hw, hpunct]
      cases st with
      | true =>
        rw [hskip]
        exact ihr true
      | false =>
        rw [hfalse]
        constructor
        · apply pairsOK_cons
          · intro b hb
            intro hbnl
            exact absurd hbnl ((ihr false).2 b hb)
          · exact (ihr false).1
        · intro cf hcf
          simp only [List.head?_cons, Option.some.injEq] at hcf
          rw [← hcf]
          exact hcnl
    · have hw' : isPySpaceB c = false := by
        cases hv : isPySpaceB c
        · rfl
        · exact absurd hv hw
      have hst : ∀ st2 : Bool, breakGo st2 (c :: r) = breakGo false (c :: r) := by
        intro st2
        cases st2 with
        | false => rfl
        | true =>
          simp only [breakGo]
          rw [hw']
          simp only [Bool.and_false, Bool.false_and]
      rw [hst st]
      cases r with
      | nil =>
        have hout : breakGo false [c] = [c] := by
          simp [breakGo]
        rw [hout]
        refine ⟨pairsOK_single, ?_⟩
        intro cf hcf
        simp only [List.head?_cons, Option.some.injEq] at hcf
        rw [← hcf]
        exact hcnl
      | cons d t =>
        have hout : breakGo false (c :: d :: t) =
            if (punctB c && isPySpaceB d) = true then c :: nl :: breakGo true (d :: t)
            else c :: breakGo false (d :: t) := by
          simp only [breakGo, Bool.false_and, Bool.false_eq_true, if_false]
        by_cases hcond : (punctB c && isPySpaceB d) = true
        · rw [if_pos hcond] at hout
          rw [hout]
          constructor
          · apply pairsOK_cons
            · intro b hb
              simp only [List.head?_cons, Option.some.injEq] at hb
              rw [← hb]
              intro _
              exact (Bool.and_eq_true _ _ |>.mp hcond).1
            · apply pairsOK_cons
              · intro b hb
                intro hbnl
                exact absurd hbnl ((ihr true).2 b hb)
              · exact (ihr true).1
          · intro cf hcf
            simp only [List.head?_cons, Option.some.injEq] at hcf
            rw [← hcf]
            exact hcnl
        · rw [if_neg hcond] at hout
          rw [hout]
          constructor
          · apply pairsOK_cons
            · intro b hb
              intro hbnl
              exact absurd hbnl ((ihr false).2 b hb)
            · exact (ihr false).1
          · intro cf hcf
            simp only [List.head?_cons, Option.some.injEq] at hcf
            rw [← hcf]
            exact hcnl

/-- A pattern ending in two given characters forces their adjacency. -/
theorem startsWith_last_pair (u : List Char) {a b : Char} {s : List Char}
    (h : startsWithSeq (u ++ [a, b]) s = true) : containsSeq [a, b] s = true := by
  induction u generalizing s with
  | nil =>
    cases s with
    | nil => simp [startsWithSeq] at h
    | cons c s' =>
      simp only [containsSeq, Bool.or_eq_true]
      left
      simpa using h
  | cons c u' ih =>
    cases s with
    | nil => simp [startsWithSeq] at h
    | cons d s' =>
      simp only [List.cons_append, startsWithSeq, Bool.and_eq_true] at h
      simp only [containsSeq, Bool.or_eq_true]
      right
      exact ih h.2

/-- On text where every newline follows punctuation, no abbreviation
alternative followed by a newline can occur: the alternatives end in
letters. -/
theorem matchAbbrev_none_of_pairs {s : List Char} (hp : pairsOK nlAfterPunct s) :
    matchAbbrev s = none := by
  unfold matchAbbrev
  rw [List.find?_eq_none]
  intro alt hmem
  simp only [Bool.not_eq_true]
  cases hsw : startsWithSeq (alt ++ [nl]) s
  · rfl
  · exfalso
    simp only [abbrevList, List.mem_cons, List.not_mem_nil, or_false] at hmem
    rcases hmem with h|h|h|h|h|h|h|h|h <;> rw [h] at hsw <;>
      simp only [List.cons_append, List.nil_append] at hsw
    · exact absurd (containsSeq_pair (startsWith_last_pair ['M'] hsw) hp rfl) (by decide)
    · exact absurd (containsSeq_pair (startsWith_last_pair ['M', 'r'] hsw) hp rfl) (by decide)
    · exact absurd (containsSeq_pair (startsWith_last_pair ['D'] hsw) hp rfl) (by decide)
    · exact absurd (containsSeq_pair (startsWith_last_pair ['M'] hsw) hp rfl) (by decide)
    · exact absurd (containsSeq_pair (startsWith_last_pair ['P', 'r', 'o'] hsw) hp rfl) (by decide)
    · exact absurd (containsSeq_pair (startsWith_last_pair ['v'] hsw) hp rfl) (by decide)
    · exact absurd (containsSeq_pair (startsWith_last_pair ['e', 't'] hsw) hp rfl) (by decide)
    · exact absurd (containsSeq_pair (startsWith_last_pair ['i', '.'] hsw) hp rfl) (by decide)
    · exact absurd (containsSeq_pair (startsWith_last_pair ['e', '.'] hsw) hp rfl) (by decide)

/-- The abbreviation substitution never fires on pipeline text. -/
theorem abbrev_noop {y : List Char} (hp : pairsOK nlAfterPunct y) :
    ∀ pw : Bool, abbrevGoS 0 pw y = y := by
  induction y with
  | nil => intro pw; rfl
  | cons c r ih =>
    intro pw
    have hnone := matchAbbrev_none_of_pairs hp
    have hstep : abbrevGoS 0 pw (c :: r) = c :: abbrevGoS 0 (isWordCharB c) r := by
      simp [abbrevGoS, hnone]
    rw [hstep, ih (pairsOK_tail hp) (isWordCharB c)]

theorem digit_not_punct {c : Char} (h : isDigitB c = true) : punctB c = false := by
  cases hv : punctB c
  · rfl
  · exfalso
    simp only [punctB, Bool.or_eq_true, beq_iff_eq] at hv
    rcases hv with (((hv | hv) | hv) | hv) | hv <;> rw [hv] at h <;> exact absurd h (by decide)

/-- The decimal-rejoin substitution never fires on pipeline text: a digit
is never followed by a newline there. -/
theorem digit_noop : ∀ (n : Nat) (y : List Char), y.length ≤ n →
    pairsOK nlAfterPunct y → digitSub y = y := by
  intro n
  induction n with
  | zero =>
    intro y hy _
    have : y = [] := List.length_eq_zero.mp (Nat.le_zero.mp hy)
    subst this
    rfl
  | succ n ihn =>
    intro y hy hp
    match y with
    | [] => rfl
    | [c] => rfl
    | [c, d] => rfl
    | c :: d1 :: d2 :: r2 =>
      by_cases hcond : (isDigitB c && d1 == nl && isDigitB d2) = true
      · exfalso
        simp only [Bool.and_eq_true, beq_iff_eq] at hcond
        have hpair : nlAfterPunct c d1 := hp.1
        have := hpair hcond.1.2
        rw [digit_not_punct hcond.1.1] at this
        exact Bool.noConfusion this
      · have hstep : digitSub (c :: d1 :: d2 :: r2) = c :: digitSub (d1 :: d2 :: r2) := by
          simp only [digitSub]
          rw [if_neg hcond]
        rw [hstep]
        have hlen : (d1 :: d2 :: r2).length ≤ n := by
          simp only [List.length_cons] at hy ⊢
          omega
        rw [ihn (d1 :: d2 :: r2) hlen (pairsOK_tail hp)]

theorem spc_not_punct : punctB spc = false := by decide

/-- Worker fact for the space-before-newline substitution: on text where
every newline follows punctuation (so never a space), the scanner only
re-emits its pending spaces and input. -/
theorem spaceNl_noop_aux : ∀ y : List Char, pairsOK nlAfterPunct y →
    ∀ pend : Nat, (0 < pend → y.head? ≠ some nl) →
      spaceNlGo pend y = List.replicate pend spc ++ y := by
  intro y
  induction y with
  | nil =>
    intro _ pend _
    simp [spaceNlGo]
  | cons c r ih =>
    intro hp pend hhead
    by_cases hc : c = spc
    · subst hc
      have hstep : spaceNlGo pend (spc :: r) = spaceNlGo (pend + 1) r := by
        simp [spaceNlGo]
      rw [hstep]
      have hr : 0 < pend + 1 → r.head? ≠ some nl := by
        intro _ hrc
        cases r with
        | nil => simp at hrc
        | cons d t =>
          simp only [List.head?_cons, Option.some.injEq] at hrc
          have hpair : nlAfterPunct spc d := hp.1
          have := hpair hrc
          rw [spc_not_punct] at this
          exact Bool.noConfusion this
      rw [ih (pairsOK_tail hp) (pend + 1) hr]
      have hrep : List.replicate (pend + 1) spc = List.replicate pend spc ++ [spc] := by
        rw [List.replicate_succ']
      rw [hrep]
      simp
    · by_cases hcn : c = nl
      · subst hcn
        have hpend : pend = 0 := by
          by_contra hne
          exact hhead (Nat.pos_of_ne_zero hne) rfl
        subst hpend
        have hstep : spaceNlGo 0 (nl :: r) = nl :: spaceNlGo 0 r := by
          simp [spaceNlGo, hc]
        rw [hstep, ih (pairsOK_tail hp) 0 (by intro h; exact absurd h (by simp))]
        simp
      · have hstep : spaceNlGo pend (c :: r) =
            List.replicate pend spc ++ c :: spaceNlGo 0 r := by
          simp [spaceNlGo, hc, hcn]
        rw [hstep, ih (pairsOK_tail hp) 0 (by intro h; exact absurd h (by simp))]
        simp

theorem spaceNl_noop {y : List Char} (hp : pairsOK nlAfterPunct y) : spaceNlSub y = y := by
  unfold spaceNlSub
  rw [spaceNl_noop_aux y hp 0 (by intro h; exact absurd h (by simp))]
  simp

/-- The re-segmentation stage factors through its first three
substitutions: on their output every newline follows punctuation, so the
abbreviation, decimal and space-before-newline substitutions are
identities, and only the paragraph substitution remains. -/
theorem mid_eq (s : List Char) :
    remove_mid_sentence_newlines s =
      paraSub (breakAfterPunct (pyStrip (wsPlusToSpace (nlPlusToSpace s)))) := by
  unfold remove_mid_sentence_newlines
  have hnl2 : nl ∉ wsPlusToSpace (nlPlusToSpace s) := wsPlus_no_nl (nlPlusToSpace s) false
  have hnl3 : nl ∉ pyStrip (wsPlusToSpace (nlPlusToSpace s)) :=
    fun hm => hnl2 (mem_pyStrip_sub hm)
  have hpairs : pairsOK nlAfterPunct
      (breakAfterPunct (pyStrip (wsPlusToSpace (nlPlusToSpace s)))) :=
    (break_nlAfterPunct (pyStrip (wsPlusToSpace (nlPlusToSpace s))) hnl3 false).1
  rw [show abbrevSub (breakAfterPunct (pyStrip (wsPlusToSpace (nlPlusToSpace s)))) =
    breakAfterPunct (pyStrip (wsPlusToSpace (nlPlusToSpace s))) from abbrev_noop hpairs false]
  rw [digit_noop (breakAfterPunct (pyStrip (wsPlusToSpace (nlPlusToSpace s)))).length _
    (Nat.le_refl _) hpairs]
  rw [spaceNl_noop hpairs]

/-- The re-segmentation stage leaves no adjacent whitespace pair other
than a doubled newline. -/
theorem mid_pairs (s : List Char) :
    pairsOK wsPairNl (remove_mid_sentence_newlines s) := by
  rw [mid_eq]
  have h2 : pairsOK noWsPair (wsPlusToSpace (nlPlusToSpace s)) :=
    (wsPlus_pairs (nlPlusToSpace s) false).1
  have h3 : pairsOK noWsPair (pyStrip (wsPlusToSpace (nlPlusToSpace s))) :=
    pairsOK_pyStrip h2
  have h4 : pairsOK noWsPair (breakAfterPunct (pyStrip (wsPlusToSpace (nlPlusToSpace s)))) :=
    (break_pairs (pyStrip (wsPlusToSpace (nlPlusToSpace s))) false h3).1
  exact (para_pairs (breakAfterPunct (pyStrip (wsPlusToSpace (nlPlusToSpace s)))).length
    _ (Nat.le_refl _) h4).1


theorem firstLine_head {r l : List Char} {ls : List (List Char)} {b : Char}
    (hsp : splitNl r = l :: ls) (hb : l.head? = some b) : r.head? = some b := by
  cases r with
  | nil =>
    simp only [splitNl, List.cons.injEq] at hsp
    rw [← hsp.1] at hb
    simp at hb
  | cons c r' =>
    simp only [splitNl] at hsp
    by_cases hc : c = nl
    · rw [if_pos hc] at hsp
      injection hsp with h1 _
      rw [← h1] at hb
      simp at hb
    · rw [if_neg hc] at hsp
      rcases h2 : splitNl r' with _ | ⟨l0, ls0⟩
      · exact absurd h2 (splitNl_ne_nil r')
      · rw [h2] at hsp
        injection hsp with h1 _
        rw [← h1] at hb
        simp only [List.head?_cons, Option.some.injEq] at hb ⊢
        exact hb

/-- A line in the tail of the split starts right after a newline. -/
theorem linesTail_head : ∀ (t l : List Char) (b : Char),
    l ∈ (splitNl t).tail → l.head? = some b → containsSeq [nl, b] t = true := by
  intro t
  induction t with
  | nil =>
    intro l b hmem _
    simp [splitNl] at hmem
  | cons c r ih =>
    intro l b hmem hb
    simp only [splitNl] at hmem
    by_cases hc : c = nl
    · rw [if_pos hc] at hmem
      simp only [List.tail_cons] at hmem
      subst hc
      rcases h2 : splitNl r with _ | ⟨l0, ls0⟩
      · exact absurd h2 (splitNl_ne_nil r)
      · rw [h2] at hmem
        rcases List.mem_cons.mp hmem with h1 | h1
        · have hrh : r.head? = some b := firstLine_head h2 (h1 ▸ hb)
          cases r with
          | nil => simp at hrh
          | cons d r2 =>
            simp only [List.head?_cons, Option.some.injEq] at hrh
            simp only [containsSeq, Bool.or_eq_true]
            left
            simp [startsWithSeq, hrh]
        · have hmem2 : l ∈ (splitNl r).tail := by rw [h2]; exact h1
          simp only [containsSeq, Bool.or_eq_true]
          right
          exact ih l b hmem2 hb
    · rw [if_neg hc] at hmem
      rcases h2 : splitNl r with _ | ⟨l0, ls0⟩
      · exact absurd h2 (splitNl_ne_nil r)
      · rw [h2] at hmem
        simp only [List.tail_cons] at hmem
        have hmem2 : l ∈ (splitNl r).tail := by rw [h2]; exact hmem
        simp only [containsSeq, Bool.or_eq_true]
        right
        exact ih l b hmem2 hb

/-- A line before the last line of the split ends right before a newline. -/
theorem linesInit_last : ∀ (t l : List Char) (a : Char),
    l ∈ (splitNl t).dropLast → l.getLast? = some a → containsSeq [a, nl] t = true := by
  intro t
  induction t with
  | nil =>
    intro l a hmem _
    simp [splitNl] at hmem
  | cons c r ih =>
    intro l a hmem ha
    simp only [splitNl] at hmem
    by_cases hc : c = nl
    · rw [if_pos hc] at hmem
      subst hc
      rcases h2 : splitNl r with _ | ⟨l0, ls0⟩
      · exact absurd h2 (splitNl_ne_nil r)
      · rw [h2, List.dropLast_cons₂] at hmem
        rcases List.mem_cons.mp hmem with h1 | h1
        · rw [h1] at ha
          simp at ha
        · have hmem2 : l ∈ (splitNl r).dropLast := by rw [h2]; exact h1
          simp only [containsSeq, Bool.or_eq_true]
          right
          exact ih l a hmem2 ha
    · rw [if_neg hc] at hmem
      rcases h2 : splitNl r with _ | ⟨l0, ls0⟩
      · exact absurd h2 (splitNl_ne_nil r)
      · rw [h2] at hmem
        cases ls0 with
        | nil => simp at hmem
        | cons l1 ls1 =>
          rw [List.dropLast_cons₂] at hmem
          rcases List.mem_cons.mp hmem with h1 | h1
          · rw [h1] at ha
            cases l0 with
            | nil =>
              simp only [List.getLast?_singleton, Option.some.injEq] at ha
              have hr : ∃ r2, r = nl :: r2 := by
                cases r with
                | nil => simp [splitNl] at h2
                | cons d r2 =>
                  simp only [splitNl] at h2
                  by_cases hd : d = nl
                  · exact ⟨r2, by rw [hd]⟩
                  · rw [if_neg hd] at h2
                    rcases h3 : splitNl r2 with _ | ⟨m0, ms0⟩
                    · exact absurd h3 (splitNl_ne_nil r2)
                    · rw [h3] at h2
                      injection h2 with hh _
                      exact absurd hh.symm (by simp)
              rcases hr with ⟨r2, hr2⟩
              rw [hr2]
              simp only [containsSeq, Bool.or_eq_true]
              left
              simp [startsWithSeq, ha]
            | cons x l0' =>
              rw [List.getLast?_cons_cons] at ha
              have hmem2 : l0' ∈ [] ∨ True := Or.inr trivial
              have hm0 : (x :: l0') ∈ (splitNl r).dropLast := by
                rw [h2, List.dropLast_cons₂]
                exact List.mem_cons_self _ _
              simp only [containsSeq, Bool.or_eq_true]
              right
              exact ih (x :: l0') a hm0 ha
          · have hmem2 : l ∈ (splitNl r).dropLast := by
              rw [h2, List.dropLast_cons₂]
              exact List.mem_cons_of_mem l0 h1
            simp only [containsSeq, Bool.or_eq_true]
            right
            exact ih l a hmem2 ha

/-- The last line of the split ends where the text ends. -/
theorem linesLast_last : ∀ (t l : List Char) (a : Char),
    (splitNl t).getLast? = some l → l.getLast? = some a → t.getLast? = some a := by
  intro t
  induction t with
  | nil =>
    intro l a hl ha
    simp only [splitNl, List.getLast?_singleton, Option.some.injEq] at hl
    rw [← hl] at ha
    simp at ha
  | cons c r ih =>
    intro l a hl ha
    simp only [splitNl] at hl
    by_cases hc : c = nl
    · rw [if_pos hc] at hl
      subst hc
      cases r with
      | nil =>
        simp only [splitNl] at hl
        simp only [List.getLast?_cons_cons, List.getLast?_singleton, Option.some.injEq] at hl
        rw [← hl] at ha
        simp at ha
      | cons d r2 =>
        rcases h2 : splitNl (d :: r2) with _ | ⟨l0, ls0⟩
        · exact absurd h2 (splitNl_ne_nil (d :: r2))
        · rw [h2, List.getLast?_cons_cons] at hl
          have hrlast := ih l a (by rw [h2]; exact hl) ha
          rw [List.getLast?_cons_cons]
          exact hrlast
    · rw [if_neg hc] at hl
      rcases h2 : splitNl r with _ | ⟨l0, ls0⟩
      · exact absurd h2 (splitNl_ne_nil r)
      · rw [h2] at hl
        cases ls0 with
        | nil =>
          simp only [List.getLast?_singleton, Option.some.injEq] at hl
          have hr : r = l0 := by
            have hback := joinNl_splitNl r
            rw [h2] at hback
            exact hback.symm
          rw [← hl] at ha
          rw [hr]
          exact ha
        | cons l1 ls1 =>
          rw [List.getLast?_cons_cons] at hl
          have hrlast := ih l a (by rw [h2, List.getLast?_cons_cons]; exact hl) ha
          cases r with
          | nil => simp [splitNl] at h2
          | cons d r2 =>
            rw [List.getLast?_cons_cons]
            exact hrlast

theorem mem_of_mem_tail {α : Type} {l : List α} {a : α} (h : a ∈ l.tail) : a ∈ l := by
  cases l with
  | nil => simp at h
  | cons c r => exact List.mem_cons_of_mem c h

theorem mem_tail_filter {p : List Char → Bool} :
    ∀ {S : List (List Char)} {l : List Char}, l ∈ (S.filter p).tail → l ∈ S.tail := by
  intro S
  induction S with
  | nil => intro l h; simp at h
  | cons s0 S' ih =>
    intro l h
    rw [List.filter_cons] at h
    split at h
    · simp only [List.tail_cons] at h ⊢
      exact List.mem_of_mem_filter h
    · simp only [List.tail_cons]
      exact mem_of_mem_tail (ih h)

theorem mem_dropLast_filter {p : List Char → Bool} :
    ∀ {S : List (List Char)} {l : List Char},
      l ∈ (S.filter p).dropLast → l ∈ S.dropLast := by
  intro S
  induction S with
  | nil => intro l h; simp at h
  | cons s0 S' ih =>
    intro l h
    rw [List.filter_cons] at h
    split at h
    · cases hF : List.filter p S' with
      | nil =>
        rw [hF] at h
        simp at h
      | cons f0 F' =>
        rw [hF, List.dropLast_cons₂] at h
        have hS' : S' ≠ [] := by
          intro he
          rw [he] at hF
          simp at hF
        rcases List.mem_cons.mp h with h1 | h1
        · cases S' with
          | nil => exact absurd rfl hS'
          | cons t0 T' =>
            rw [List.dropLast_cons₂]
            rw [h1]
            exact List.mem_cons_self _ _
        · have hmem : l ∈ (List.filter p S').dropLast := by rw [hF]; exact h1
          have hS'm := ih hmem
          cases S' with
          | nil => simp at hS'm
          | cons t0 T' =>
            rw [List.dropLast_cons₂]
            exact List.mem_cons_of_mem _ hS'm
    · have hS'm := ih h
      cases S' with
      | nil => simp at hS'm
      | cons t0 T' =>
        rw [List.dropLast_cons₂]
        exact List.mem_cons_of_mem _ hS'm

/-- Pairs within a line of the split are pairs of the text. -/
theorem pairsOK_mem_splitNl {R : Char → Char → Prop} :
    ∀ (t : List Char), pairsOK R t → ∀ l ∈ splitNl t, pairsOK R l := by
  intro t
  induction t with
  | nil =>
    intro _ l hl
    simp only [splitNl, List.mem_singleton] at hl
    rw [hl]
    trivial
  | cons c r ih =>
    intro hp l hl
    simp only [splitNl] at hl
    by_cases hc : c = nl
    · rw [if_pos hc] at hl
      rcases List.mem_cons.mp hl with h1 | h1
      · rw [h1]; trivial
      · exact ih (pairsOK_tail hp) l h1
    · rw [if_neg hc] at hl
      rcases h2 : splitNl r with _ | ⟨l0, ls0⟩
      · exact absurd h2 (splitNl_ne_nil r)
      · rw [h2] at hl
        rcases List.mem_cons.mp hl with h1 | h1
        · rw [h1]
          apply pairsOK_cons
          · intro b hb
            have hrh : r.head? = some b := firstLine_head h2 hb
            cases r with
            | nil => simp at hrh
            | cons d r2 =>
              simp only [List.head?_cons, Option.some.injEq] at hrh
              rw [← hrh]
              exact hp.1
          · exact ih (pairsOK_tail hp) l0 (by rw [h2]; exact List.mem_cons_self _ _)
        · exact ih (pairsOK_tail hp) l (by rw [h2]; exact List.mem_cons_of_mem l0 h1)

/-- Adjacent pairs of a newline join, with boundary obligations only where
a separator actually stands: the last characters of all parts except the
final one, and the first characters of all parts except the first one. -/
theorem pairsOK_joinNl_parts {R : Char → Char → Prop} {ls : List (List Char)}
    (hne : ∀ l ∈ ls, l ≠ [])
    (hl : ∀ l ∈ ls, pairsOK R l)
    (hlast : ∀ l ∈ ls.dropLast, ∀ a, l.getLast? = some a → R a nl)
    (hhead : ∀ l ∈ ls.tail, ∀ b, l.head? = some b → R nl b) :
    pairsOK R (joinNl ls) := by
  induction ls with
  | nil => trivial
  | cons l rest ih =>
    cases rest with
    | nil => exact hl l (List.mem_cons_self l [])
    | cons l2 t =>
      have hstep : joinNl (l :: l2 :: t) = l ++ nl :: joinNl (l2 :: t) := rfl
      rw [hstep]
      have hmem : ∀ x ∈ l2 :: t, x ∈ l :: l2 :: t :=
        fun x hx => List.mem_cons_of_mem l hx
      have hy : pairsOK R (nl :: joinNl (l2 :: t)) := by
        apply pairsOK_cons
        · intro b hb
          rw [joinNl_head?_eq t (hne l2 (hmem l2 (List.mem_cons_self l2 t)))] at hb
          exact hhead l2 (List.mem_cons_self l2 t) b hb
        · apply ih (fun x hx => hne x (hmem x hx)) (fun x hx => hl x (hmem x hx))
          · intro x hx a ha
            apply hlast x _ a ha
            rw [List.dropLast_cons₂]
            exact List.mem_cons_of_mem l hx
          · intro x hx b hb
            apply hhead x _ b hb
            simp only [List.tail_cons] at hx ⊢
            exact mem_of_mem_tail hx
      apply pairsOK_append (hl l (List.mem_cons_self l (l2 :: t))) hy
      intro a b hlast' hhead'
      simp only [List.head?_cons, Option.some.injEq] at hhead'
      rw [← hhead']
      apply hlast l _ a hlast'
      rw [List.dropLast_cons₂]
      exact List.mem_cons_self _ _

theorem mem_dropLast_or_getLast {α : Type} : ∀ {S : List α} {l : α}, l ∈ S →
    l ∈ S.dropLast ∨ S.getLast? = some l := by
  intro S
  induction S with
  | nil => intro l h; simp at h
  | cons s0 S' ih =>
    intro l h
    cases S' with
    | nil =>
      right
      rcases List.mem_cons.mp h with h1 | h1
      · rw [h1]; simp
      · simp at h1
    | cons s1 S'' =>
      rcases List.mem_cons.mp h with h1 | h1
      · left
        rw [List.dropLast_cons₂, h1]
        exact List.mem_cons_self _ _
      · rcases ih h1 with h2 | h2
        · left
          rw [List.dropLast_cons₂]
          exact List.mem_cons_of_mem _ h2
        · right
          rw [List.getLast?_cons_cons]
          exact h2

/-! ## Claim C7: whitespace invariant -/

/-- A line ends in a space or a tab. -/
def endsSpTab (l : List Char) : Bool :=
  match l.getLast? with
  | some c => spTabB c
  | none => false

/-- Some line of the text has a trailing space or tab. -/
def anyLineEndsSpTab (s : List Char) : Bool :=
  (splitNl s).any endsSpTab

/-- The text contains a run of three or more consecutive space or tab
characters. -/
def hasSpTabRun3 : List Char → Bool
  | a :: b :: c :: r => (spTabB a && spTabB b && spTabB c) || hasSpTabRun3 (b :: c :: r)
  | _ => false

theorem spTab_ws {c : Char} (h : spTabB c = true) : isPySpaceB c = true := by
  simp only [spTabB, Bool.or_eq_true, beq_iff_eq] at h
  rcases h with h | h
  · rw [h]; decide
  · rw [h]; decide

/-- Under the whitespace-pair invariant no three consecutive characters can
all be spaces or tabs: already two adjacent whitespace characters would have
to both be newlines. -/
theorem hasSpTabRun3_false_of_pairs : ∀ (s : List Char), pairsOK wsPairNl s →
    hasSpTabRun3 s = false := by
  intro s
  induction s with
  | nil => intro _; rfl
  | cons a s' ih =>
    intro hp
    cases s' with
    | nil => rfl
    | cons b s'' =>
      cases s'' with
      | nil => rfl
      | cons c3 r =>
        show (spTabB a && spTabB b && spTabB c3 || hasSpTabRun3 (b :: c3 :: r)) = false
        rw [ih (pairsOK_tail hp), Bool.or_false]
        by_cases ha : spTabB a = true
        · by_cases hb : spTabB b = true
          · have hab := (pairsOK_head hp : wsPairNl a b) (spTab_ws ha) (spTab_ws hb)
            rw [hab.1] at ha
            exact absurd ha (by decide)
          · rw [Bool.not_eq_true] at hb
            rw [hb, Bool.and_false, Bool.false_and]
        · rw [Bool.not_eq_true] at ha
          rw [ha, Bool.false_and, Bool.false_and]

theorem any_false {α : Type} {p : α → Bool} : ∀ {L : List α},
    (∀ x ∈ L, p x = false) → L.any p = false := by
  intro L
  induction L with
  | nil => intro _; rfl
  | cons a t ih =>
    intro h
    simp only [List.any_cons, Bool.or_eq_false_iff]
    exact ⟨h a (List.mem_cons_self a t), ih (fun x hx => h x (List.mem_cons_of_mem a hx))⟩

/-- No line of a stripped text satisfying the whitespace-pair invariant ends
in a space or tab: a non-final line is followed by a newline in the text, so
the pair relation forbids a whitespace character there, and the final line
ends where the stripped text ends. -/
theorem trailing_false_of_pairs (w : List Char)
    (hw : pairsOK wsPairNl (pyStrip w)) :
    anyLineEndsSpTab (pyStrip w) = false := by
  apply any_false
  intro l hmem
  cases hga : l.getLast? with
  | none => simp [endsSpTab, hga]
  | some a =>
    have he : endsSpTab l = spTabB a := by simp [endsSpTab, hga]
    rw [he]
    by_contra hc
    rw [Bool.not_eq_false] at hc
    have hws : isPySpaceB a = true := spTab_ws hc
    rcases mem_dropLast_or_getLast hmem with hdl | hlast
    · have hseq := linesInit_last (pyStrip w) l a hdl hga
      have hpr : wsPairNl a nl := containsSeq_pair hseq hw
      have heq := hpr hws (by decide)
      rw [heq.1] at hc
      exact absurd hc (by decide)
    · have hga2 := linesLast_last (pyStrip w) l a hlast hga
      simp only [pyStrip] at hga2
      have hfalse : isPySpaceB a = false := rdropWhile_getLast_false hga2
      rw [hws] at hfalse
      exact Bool.noConfusion hfalse

/-- The whitespace-pair invariant survives the line filter and rejoin of
remove_empty_lines: kept lines inherit their inner pairs from the text, and
each newline inserted by the join stands where the adjacent kept line met a
newline in the text. -/
theorem remove_empty_pairs (ml : Nat) {u : List Char}
    (hu : pairsOK wsPairNl u) :
    pairsOK wsPairNl (remove_empty_lines ml u) := by
  unfold remove_empty_lines
  apply pairsOK_joinNl_parts
  · intro l hl
    exact keepLine_ne_nil (List.of_mem_filter hl)
  · intro l hl
    exact pairsOK_mem_splitNl u hu l (List.mem_of_mem_filter hl)
  · intro l hl a ha
    exact containsSeq_pair (linesInit_last u l a (mem_dropLast_filter hl) ha) hu
  · intro l hl b hb
    exact containsSeq_pair (linesTail_head u l b (mem_tail_filter hl) hb) hu

/-- C7: whitespace invariant: for every input and configuration the final
output of preprocess_text contains no line with a trailing space or tab and
no run of three or more consecutive space/tab characters. -/
theorem c7_whitespace_invariant (pp : Bool) (ml : Nat) (x : List Char) :
    anyLineEndsSpTab (preprocess_text pp ml x) = false ∧
    hasSpTabRun3 (preprocess_text pp ml x) = false := by
  unfold preprocess_text
  have hu := mid_pairs (remove_excessive_newlines pp (normalize_whitespace
    (clean_special_characters (fix_common_encoding_issues
      (remove_control_characters (normalize_unicode x))))))
  have hj := remove_empty_pairs ml hu
  exact ⟨trailing_false_of_pairs _ (pairsOK_pyStrip hj),
    hasSpTabRun3_false_of_pairs _ (pairsOK_pyStrip hj)⟩

/-! ## Claim C3: idempotence -/

set_option maxRecDepth 8000 in
/-- C3 counterexample: the pipeline is not idempotent.  On the input
a-circumflex, A-circumflex, euro sign, trade-mark sign, the first pass
removes the stray A-circumflex, which synthesizes the apostrophe mojibake
sequence a-circumflex, euro, trade-mark; the second pass collapses that
sequence to a single apostrophe, whose line the length filter then drops,
so running the pipeline twice gives the empty string while one pass does
not. -/
theorem c3_not_idempotent :
    preprocess_text true 3 (preprocess_text true 3 [aHat, aCap, euro, tmSign]) ≠
      preprocess_text true 3 [aHat, aCap, euro, tmSign] := by
  decide

theorem mem_pyRepGo {pat rep : List Char} {c : Char} :
    ∀ (s : List Char) (k : Nat), c ∈ pyRepGo pat rep k s → c ∈ rep ∨ c ∈ s := by
  intro s
  induction s with
  | nil =>
    intro k h
    cases k with
    | zero => simp [pyRepGo] at h
    | succ k2 => simp [pyRepGo] at h
  | cons d r ih =>
    intro k h
    cases k with
    | succ k2 =>
      have h' : c ∈ pyRepGo pat rep k2 r := h
      rcases ih k2 h' with h1 | h1
      · exact Or.inl h1
      · exact Or.inr (List.mem_cons_of_mem d h1)
    | zero =>
      simp only [pyRepGo] at h
      split at h
      · rcases List.mem_append.mp h with h1 | h1
        · exact Or.inl h1
        · rcases ih _ h1 with h2 | h2
          · exact Or.inl h2
          · exact Or.inr (List.mem_cons_of_mem d h2)
      · rcases List.mem_cons.mp h with h1 | h1
        · exact Or.inr (by rw [h1]; exact List.mem_cons_self d r)
        · rcases ih 0 h1 with h2 | h2
          · exact Or.inl h2
          · exact Or.inr (List.mem_cons_of_mem d h2)

theorem mem_pyReplace {pat rep s : List Char} {c : Char}
    (h : c ∈ pyReplace pat rep s) : c ∈ rep ∨ c ∈ s := by
  unfold pyReplace at h
  split at h
  · exact Or.inr h
  · exact mem_pyRepGo s 0 h

theorem mem_fix {s : List Char} {c : Char} (h : c ∈ fix_common_encoding_issues s) :
    c ∈ s ∨ c = apos ∨ c = quot ∨ c = enDash ∨ c = '.' := by
  have he : fix_common_encoding_issues s =
      pyReplace [aHat, euro, brokenBar] ['.', '.', '.']
        (pyReplace [aCap] []
          (pyReplace [aHat, euro, quot] [enDash]
            (pyReplace [aHat, euro] [quot]
              (pyReplace [aHat, euro, oeLig] [quot]
                (pyReplace [aHat, euro, tmSign] [apos] s))))) := rfl
  rw [he] at h
  rcases mem_pyReplace h with h1 | h1
  · simp only [List.mem_cons, List.not_mem_nil, or_false] at h1
    rcases h1 with h1 | h1 | h1 <;> exact Or.inr (Or.inr (Or.inr (Or.inr h1)))
  rcases mem_pyReplace h1 with h2 | h2
  · simp at h2
  rcases mem_pyReplace h2 with h3 | h3
  · simp only [List.mem_singleton] at h3
    exact Or.inr (Or.inr (Or.inr (Or.inl h3)))
  rcases mem_pyReplace h3 with h4 | h4
  · simp only [List.mem_singleton] at h4
    exact Or.inr (Or.inr (Or.inl h4))
  rcases mem_pyReplace h4 with h5 | h5
  · simp only [List.mem_singleton] at h5
    exact Or.inr (Or.inr (Or.inl h5))
  rcases mem_pyReplace h5 with h6 | h6
  · simp only [List.mem_singleton] at h6
    exact Or.inr (Or.inl h6)
  · exact Or.inl h6

theorem quotFix_eq (c : Char) : quotFix c = c := by
  unfold quotFix
  split
  · rename_i h
    exact h.symm
  · rfl

theorem apoFix_eq (c : Char) : apoFix c = c := by
  unfold apoFix
  split
  · rename_i h
    exact h.symm
  · rfl

theorem map_quotFix (s : List Char) : List.map quotFix s = s := by
  induction s with
  | nil => rfl
  | cons c r ih => simp [quotFix_eq, ih]

theorem map_apoFix (s : List Char) : List.map apoFix s = s := by
  induction s with
  | nil => rfl
  | cons c r ih => simp [apoFix_eq, ih]

theorem clean_eq (s : List Char) :
    clean_special_characters s =
      pyReplace [hellip] ['.', '.', '.'] (List.map dashFix s) := by
  unfold clean_special_characters
  rw [map_quotFix, map_apoFix]

theorem dashFix_cases (c : Char) : dashFix c = '-' ∨ dashFix c = c := by
  unfold dashFix
  split
  · exact Or.inl rfl
  · exact Or.inr rfl

theorem dashFix_not_dash (c : Char) : dashFix c ≠ enDash ∧ dashFix c ≠ emDash := by
  unfold dashFix
  split
  · exact ⟨by decide, by decide⟩
  · rename_i h
    simp only [Bool.or_eq_true, decide_eq_true_eq] at h
    constructor
    · intro he
      exact h (Or.inl he)
    · intro he
      exact h (Or.inr he)

theorem single_pyRepGo_no_pat {p : Char} {rep : List Char} (hrep : p ∉ rep) :
    ∀ s : List Char, p ∉ pyRepGo [p] rep 0 s := by
  intro s
  induction s with
  | nil => simp [pyRepGo]
  | cons d r ih =>
    intro hmem
    simp only [pyRepGo] at hmem
    have hsw : startsWithSeq [p] (d :: r) = (p == d) := by
      simp [startsWithSeq]
    rw [hsw] at hmem
    by_cases hd : p = d
    · rw [if_pos (by rw [hd]; simp)] at hmem
      rcases List.mem_append.mp hmem with h1 | h1
      · exact hrep h1
      · exact ih h1
    · rw [if_neg (by simp [hd])] at hmem
      rcases List.mem_cons.mp hmem with h1 | h1
      · exact hd h1
      · exact ih h1

theorem no_hellip_clean (s : List Char) : hellip ∉ clean_special_characters s := by
  rw [clean_eq]
  unfold pyReplace
  rw [if_neg (by simp)]
  exact single_pyRepGo_no_pat (by decide) (List.map dashFix s)

theorem mem_collapseSpTabGo {c : Char} :
    ∀ (s : List Char) (b : Bool), c ∈ collapseSpTabGo b s →
      c = spc ∨ (c ∈ s ∧ spTabB c = false) := by
  intro s
  induction s with
  | nil =>
    intro b h
    simp [collapseSpTabGo] at h
  | cons d r ih =>
    intro b h
    simp only [collapseSpTabGo] at h
    split at h
    · split at h
      · rcases ih true h with h1 | h1
        · exact Or.inl h1
        · exact Or.inr ⟨List.mem_cons_of_mem d h1.1, h1.2⟩
      · rcases List.mem_cons.mp h with h1 | h1
        · exact Or.inl h1
        · rcases ih true h1 with h2 | h2
          · exact Or.inl h2
          · exact Or.inr ⟨List.mem_cons_of_mem d h2.1, h2.2⟩
    · rename_i hd
      rw [Bool.not_eq_true] at hd
      rcases List.mem_cons.mp h with h1 | h1
      · refine Or.inr ⟨by rw [h1]; exact List.mem_cons_self d r, by rw [h1]; exact hd⟩
      · rcases ih false h1 with h2 | h2
        · exact Or.inl h2
        · exact Or.inr ⟨List.mem_cons_of_mem d h2.1, h2.2⟩

theorem mem_crlfToNl {c : Char} : ∀ (n : Nat) (s : List Char), s.length ≤ n →
    c ∈ crlfToNl s → c = nl ∨ (c ∈ s ∧ c ≠ cr) := by
  intro n
  induction n with
  | zero =>
    intro s hs h
    rw [List.length_eq_zero.mp (Nat.le_zero.mp hs)] at h
    simp [crlfToNl] at h
  | succ n ihn =>
    intro s hs h
    cases s with
    | nil => simp [crlfToNl] at h
    | cons a t =>
      cases t with
      | nil =>
        simp only [crlfToNl] at h
        split at h
        · simp only [List.mem_singleton] at h
          exact Or.inl h
        · rename_i ha
          simp only [List.mem_singleton] at h
          exact Or.inr ⟨by rw [h]; exact List.mem_cons_self a [], by rw [h]; exact ha⟩
      | cons d r =>
        have hdr : (d :: r).length ≤ n := by
          simp only [List.length_cons] at hs ⊢
          omega
        have hrlen : r.length ≤ n := by
          simp only [List.length_cons] at hs
          omega
        simp only [crlfToNl] at h
        split at h
        · split at h
          · rcases List.mem_cons.mp h with h1 | h1
            · exact Or.inl h1
            · rcases ihn r hrlen h1 with h2 | h2
              · exact Or.inl h2
              · exact Or.inr ⟨List.mem_cons_of_mem a (List.mem_cons_of_mem d h2.1), h2.2⟩
          · rcases List.mem_cons.mp h with h1 | h1
            · exact Or.inl h1
            · rcases ihn (d :: r) hdr h1 with h2 | h2
              · exact Or.inl h2
              · exact Or.inr ⟨List.mem_cons_of_mem a h2.1, h2.2⟩
        · rename_i ha
          rcases List.mem_cons.mp h with h1 | h1
          · exact Or.inr ⟨by rw [h1]; exact List.mem_cons_self a (d :: r), by rw [h1]; exact ha⟩
          · rcases ihn (d :: r) hdr h1 with h2 | h2
            · exact Or.inl h2
            · exact Or.inr ⟨List.mem_cons_of_mem a h2.1, h2.2⟩

theorem mem_joinNl {c : Char} : ∀ (ls : List (List Char)), c ∈ joinNl ls →
    c = nl ∨ ∃ l ∈ ls, c ∈ l := by
  intro ls
  induction ls with
  | nil =>
    intro h
    simp [joinNl] at h
  | cons l rest ih =>
    intro h
    cases rest with
    | nil => exact Or.inr ⟨l, List.mem_cons_self l [], h⟩
    | cons l2 t =>
      have hstep : joinNl (l :: l2 :: t) = l ++ nl :: joinNl (l2 :: t) := rfl
      rw [hstep] at h
      rcases List.mem_append.mp h with h1 | h1
      · exact Or.inr ⟨l, List.mem_cons_self _ _, h1⟩
      · rcases List.mem_cons.mp h1 with h2 | h2
        · exact Or.inl h2
        · rcases ih h2 with h3 | h3
          · exact Or.inl h3
          · rcases h3 with ⟨l0, hl0, hc⟩
            exact Or.inr ⟨l0, List.mem_cons_of_mem l hl0, hc⟩

theorem mem_joinNl_of_mem {c : Char} {l : List Char} :
    ∀ {ls : List (List Char)}, l ∈ ls → c ∈ l → c ∈ joinNl ls := by
  intro ls
  induction ls with
  | nil =>
    intro h _
    simp at h
  | cons l1 rest ih =>
    intro hmem hc
    cases rest with
    | nil =>
      rcases List.mem_cons.mp hmem with h1 | h1
      · exact h1 ▸ hc
      · simp at h1
    | cons l2 t =>
      have hstep : joinNl (l1 :: l2 :: t) = l1 ++ nl :: joinNl (l2 :: t) := rfl
      rw [hstep]
      rcases List.mem_cons.mp hmem with h1 | h1
      · exact List.mem_append.mpr (Or.inl (h1 ▸ hc))
      · exact List.mem_append.mpr (Or.inr (List.mem_cons_of_mem nl (ih h1 hc)))

theorem mem_splitNl_mem {c : Char} {l s : List Char} (hl : l ∈ splitNl s)
    (hc : c ∈ l) : c ∈ s := by
  have hj := mem_joinNl_of_mem hl hc
  rwa [joinNl_splitNl] at hj

theorem mem_rstripLines {c : Char} {s : List Char} (h : c ∈ rstripLines s) :
    c = nl ∨ c ∈ s := by
  unfold rstripLines at h
  rcases mem_joinNl _ h with h1 | ⟨l, hl, hc⟩
  · exact Or.inl h1
  · rcases List.mem_map.mp hl with ⟨l0, hl0, heq⟩
    right
    apply mem_splitNl_mem hl0
    rw [← heq] at hc
    exact mem_rdropWhile_sub hc

theorem mem_collapseNl3Go {c : Char} :
    ∀ (s : List Char) (k : Nat), c ∈ collapseNl3Go k s → c = nl ∨ c ∈ s := by
  intro s
  induction s with
  | nil =>
    intro k h
    simp [collapseNl3Go] at h
  | cons d r ih =>
    intro k h
    simp only [collapseNl3Go] at h
    split at h
    · split at h
      · rcases List.mem_cons.mp h with h1 | h1
        · exact Or.inl h1
        · rcases ih _ h1 with h2 | h2
          · exact Or.inl h2
          · exact Or.inr (List.mem_cons_of_mem d h2)
      · rcases ih _ h with h2 | h2
        · exact Or.inl h2
        · exact Or.inr (List.mem_cons_of_mem d h2)
    · rcases List.mem_cons.mp h with h1 | h1
      · exact Or.inr (by rw [h1]; exact List.mem_cons_self d r)
      · rcases ih 0 h1 with h2 | h2
        · exact Or.inl h2
        · exact Or.inr (List.mem_cons_of_mem d h2)

theorem mem_collapseNl2Go {c : Char} :
    ∀ (s : List Char) (b : Bool), c ∈ collapseNl2Go b s → c = nl ∨ c ∈ s := by
  intro s
  induction s with
  | nil =>
    intro b h
    simp [collapseNl2Go] at h
  | cons d r ih =>
    intro b h
    simp only [collapseNl2Go] at h
    split at h
    · split at h
      · rcases ih _ h with h2 | h2
        · exact Or.inl h2
        · exact Or.inr (List.mem_cons_of_mem d h2)
      · rcases List.mem_cons.mp h with h1 | h1
        · exact Or.inl h1
        · rcases ih _ h1 with h2 | h2
          · exact Or.inl h2
          · exact Or.inr (List.mem_cons_of_mem d h2)
    · rcases List.mem_cons.mp h with h1 | h1
      · exact Or.inr (by rw [h1]; exact List.mem_cons_self d r)
      · rcases ih _ h1 with h2 | h2
        · exact Or.inl h2
        · exact Or.inr (List.mem_cons_of_mem d h2)

theorem mem_nlPlusGo {c : Char} :
    ∀ (s : List Char) (b : Bool), c ∈ nlPlusToSpaceGo b s →
      c = spc ∨ (c ∈ s ∧ c ≠ nl) := by
  intro s
  induction s with
  | nil =>
    intro b h
    simp [nlPlusToSpaceGo] at h
  | cons d r ih =>
    intro b h
    simp only [nlPlusToSpaceGo] at h
    split at h
    · split at h
      · rcases ih _ h with h2 | h2
        · exact Or.inl h2
        · exact Or.inr ⟨List.mem_cons_of_mem d h2.1, h2.2⟩
      · rcases List.mem_cons.mp h with h1 | h1
        · exact Or.inl h1
        · rcases ih _ h1 with h2 | h2
          · exact Or.inl h2
          · exact Or.inr ⟨List.mem_cons_of_mem d h2.1, h2.2⟩
    · rename_i hd
      rcases List.mem_cons.mp h with h1 | h1
      · exact Or.inr ⟨by rw [h1]; exact List.mem_cons_self d r, by rw [h1]; exact hd⟩
      · rcases ih _ h1 with h2 | h2
        · exact Or.inl h2
        · exact Or.inr ⟨List.mem_cons_of_mem d h2.1, h2.2⟩

theorem mem_wsPlusGo {c : Char} :
    ∀ (s : List Char) (b : Bool), c ∈ wsPlusToSpaceGo b s →
      c = spc ∨ (c ∈ s ∧ isPySpaceB c = false) := by
  intro s
  induction s with
  | nil =>
    intro b h
    simp [wsPlusToSpaceGo] at h
  | cons d r ih =>
    intro b h
    simp only [wsPlusToSpaceGo] at h
    split at h
    · split at h
      · rcases ih _ h with h2 | h2
        · exact Or.inl h2
        · exact Or.inr ⟨List.mem_cons_of_mem d h2.1, h2.2⟩
      · rcases List.mem_cons.mp h with h1 | h1
        · exact Or.inl h1
        · rcases ih _ h1 with h2 | h2
          · exact Or.inl h2
          · exact Or.inr ⟨List.mem_cons_of_mem d h2.1, h2.2⟩
    · rename_i hd
      rw [Bool.not_eq_true] at hd
      rcases List.mem_cons.mp h with h1 | h1
      · exact Or.inr ⟨by rw [h1]; exact List.mem_cons_self d r, by rw [h1]; exact hd⟩
      · rcases ih _ h1 with h2 | h2
        · exact Or.inl h2
        · exact Or.inr ⟨List.mem_cons_of_mem d h2.1, h2.2⟩

theorem mem_breakGo {c : Char} :
    ∀ (s : List Char) (b : Bool), c ∈ breakGo b s → c = nl ∨ c ∈ s := by
  intro s
  induction s with
  | nil =>
    intro b h
    simp [breakGo] at h
  | cons d r ih =>
    intro b h
    simp only [breakGo] at h
    split at h
    · rcases ih true h with h1 | h1
      · exact Or.inl h1
      · exact Or.inr (List.mem_cons_of_mem d h1)
    · split at h
      · rcases List.mem_cons.mp h with h1 | h1
        · exact Or.inr (by rw [h1]; exact List.mem_cons_self d r)
        · rcases List.mem_cons.mp h1 with h2 | h2
          · exact Or.inl h2
          · rcases ih true h2 with h3 | h3
            · exact Or.inl h3
            · exact Or.inr (List.mem_cons_of_mem d h3)
      · rcases List.mem_cons.mp h with h1 | h1
        · exact Or.inr (by rw [h1]; exact List.mem_cons_self d r)
        · rcases ih false h1 with h2 | h2
          · exact Or.inl h2
          · exact Or.inr (List.mem_cons_of_mem d h2)

theorem mem_paraGo {c : Char} : ∀ (n : Nat) (s : List Char), s.length ≤ n →
    ∀ k, c ∈ paraGo k s → c = nl ∨ c ∈ s := by
  intro n
  induction n with
  | zero =>
    intro s hs k h
    rw [List.length_eq_zero.mp (Nat.le_zero.mp hs)] at h
    cases k with
    | zero => simp [paraGo] at h
    | succ k2 => simp [paraGo] at h
  | succ n ihn =>
    intro s hs k h
    cases s with
    | nil =>
      cases k with
      | zero => simp [paraGo] at h
      | succ k2 => simp [paraGo] at h
    | cons d r =>
      have hr : r.length ≤ n := by
        simp only [List.length_cons] at hs
        omega
      cases k with
      | succ k2 =>
        have h' : c ∈ paraGo k2 r := h
        rcases ihn r hr k2 h' with h1 | h1
        · exact Or.inl h1
        · exact Or.inr (List.mem_cons_of_mem d h1)
      | zero =>
        by_cases hd : d = nl
        · subst hd
          cases hcm : capMatch r with
          | none =>
            have h' : c ∈ nl :: paraGo 0 r := by
              simpa [paraGo, hcm] using h
            rcases List.mem_cons.mp h' with h1 | h1
            · exact Or.inl h1
            · rcases ihn r hr 0 h1 with h2 | h2
              · exact Or.inl h2
              · exact Or.inr (List.mem_cons_of_mem nl h2)
          | some m =>
            have h' : c ∈ nl :: nl :: (m ++ paraGo m.length r) := by
              simpa [paraGo, hcm] using h
            rcases capMatch_decomp hcm with ⟨cm, mrest, rest, hm, hup, hsplit⟩
            rcases List.mem_cons.mp h' with h1 | h1
            · exact Or.inl h1
            rcases List.mem_cons.mp h1 with h2 | h2
            · exact Or.inl h2
            rcases List.mem_append.mp h2 with h3 | h3
            · refine Or.inr (List.mem_cons_of_mem nl ?_)
              rw [hsplit]
              exact List.mem_append.mpr (Or.inl h3)
            · rcases ihn r hr m.length h3 with h4 | h4
              · exact Or.inl h4
              · exact Or.inr (List.mem_cons_of_mem nl h4)
        · have h' : c ∈ d :: paraGo 0 r := by
            simpa [paraGo, hd] using h
          rcases List.mem_cons.mp h' with h1 | h1
          · exact Or.inr (by rw [h1]; exact List.mem_cons_self d r)
          · rcases ihn r hr 0 h1 with h2 | h2
            · exact Or.inl h2
            · exact Or.inr (List.mem_cons_of_mem d h2)

theorem mem_remove_empty {c : Char} {ml : Nat} {s : List Char}
    (h : c ∈ remove_empty_lines ml s) : c = nl ∨ c ∈ s := by
  unfold remove_empty_lines at h
  rcases mem_joinNl _ h with h1 | ⟨l, hl, hc⟩
  · exact Or.inl h1
  · exact Or.inr (mem_splitNl_mem (List.mem_of_mem_filter hl) hc)

/-- The character classes a pipeline output can still contain: no removable
control character, none of the special characters the cleaning stage maps
away, and every whitespace character is a plain space or a newline. -/
def goodChar (c : Char) : Bool :=
  !removableCtrl c && !(c == enDash) && !(c == emDash) && !(c == hellip) &&
    (!isPySpaceB c || c == spc || c == nl)

theorem ctrl_fact1 (x : List Char) :
    ∀ c ∈ remove_control_characters x, removableCtrl c = false := by
  intro c hc
  unfold remove_control_characters at hc
  have := (List.mem_filter.mp hc).2
  rwa [Bool.not_eq_true'] at this

theorem ctrl_fact2 {s : List Char} (h : ∀ c ∈ s, removableCtrl c = false) :
    ∀ c ∈ fix_common_encoding_issues s, removableCtrl c = false := by
  intro c hc
  rcases mem_fix hc with h1 | h1 | h1 | h1 | h1
  · exact h c h1
  · rw [h1]; decide
  · rw [h1]; decide
  · rw [h1]; decide
  · rw [h1]; decide

theorem clean_fact {s : List Char} (h : ∀ c ∈ s, removableCtrl c = false) :
    ∀ c ∈ clean_special_characters s,
      removableCtrl c = false ∧ c ≠ enDash ∧ c ≠ emDash ∧ c ≠ hellip := by
  intro c hc
  have hnh : c ≠ hellip := by
    intro he
    exact no_hellip_clean s (he ▸ hc)
  rw [clean_eq] at hc
  rcases mem_pyReplace hc with h1 | h1
  · simp only [List.mem_cons, List.not_mem_nil, or_false] at h1
    rcases h1 with h1 | h1 | h1 <;>
      exact ⟨by rw [h1]; decide, by rw [h1]; decide, by rw [h1]; decide, hnh⟩
  · rcases List.mem_map.mp h1 with ⟨c0, hc0, heq⟩
    refine ⟨?_, ?_, ?_, hnh⟩
    · rcases dashFix_cases c0 with hd | hd
      · rw [← heq, hd]; decide
      · rw [← heq, hd]; exact h c0 hc0
    · rw [← heq]; exact (dashFix_not_dash c0).1
    · rw [← heq]; exact (dashFix_not_dash c0).2

theorem spc_p3 : removableCtrl spc = false ∧ spc ≠ enDash ∧ spc ≠ emDash ∧ spc ≠ hellip := by
  decide

theorem nl_p3 : removableCtrl nl = false ∧ nl ≠ enDash ∧ nl ≠ emDash ∧ nl ≠ hellip := by
  decide

theorem normWs_fact {s : List Char}
    (h : ∀ c ∈ s, removableCtrl c = false ∧ c ≠ enDash ∧ c ≠ emDash ∧ c ≠ hellip) :
    ∀ c ∈ normalize_whitespace s,
      removableCtrl c = false ∧ c ≠ enDash ∧ c ≠ emDash ∧ c ≠ hellip := by
  intro c hc
  unfold normalize_whitespace at hc
  rcases mem_rstripLines hc with h1 | h1
  · rw [h1]; exact nl_p3
  · rcases mem_crlfToNl (collapseSpTabGo false s).length _ (Nat.le_refl _) h1 with h2 | h2
    · rw [h2]; exact nl_p3
    · rcases mem_collapseSpTabGo s false h2.1 with h3 | h3
      · rw [h3]; exact spc_p3
      · exact h c h3.1

theorem excessive_fact (pp : Bool) {s : List Char}
    (h : ∀ c ∈ s, removableCtrl c = false ∧ c ≠ enDash ∧ c ≠ emDash ∧ c ≠ hellip) :
    ∀ c ∈ remove_excessive_newlines pp s,
      removableCtrl c = false ∧ c ≠ enDash ∧ c ≠ emDash ∧ c ≠ hellip := by
  intro c hc
  unfold remove_excessive_newlines at hc
  cases pp with
  | true =>
    rw [if_pos rfl] at hc
    rcases mem_collapseNl3Go s 0 hc with h1 | h1
    · rw [h1]; exact nl_p3
    · exact h c h1
  | false =>
    rw [if_neg (by simp)] at hc
    rcases mem_collapseNl2Go s false hc with h1 | h1
    · rw [h1]; exact nl_p3
    · exact h c h1

theorem m2_fact {s : List Char}
    (h : ∀ c ∈ s, removableCtrl c = false ∧ c ≠ enDash ∧ c ≠ emDash ∧ c ≠ hellip) :
    ∀ c ∈ wsPlusToSpace (nlPlusToSpace s), goodChar c = true := by
  intro c hc
  rcases mem_wsPlusGo _ false hc with h1 | h1
  · rw [h1]; decide
  · rcases mem_nlPlusGo s false h1.1 with h2 | h2
    · rw [h2]; decide
    · rcases h c h2.1 with ⟨hc1, hc2, hc3, hc4⟩
      unfold goodChar
      rw [hc1, h1.2]
      simp only [Bool.not_false, Bool.true_and, Bool.or_true, Bool.true_or, Bool.and_true]
      rw [beq_eq_false_iff_ne.mpr hc2, beq_eq_false_iff_ne.mpr hc3, beq_eq_false_iff_ne.mpr hc4]
      rfl

theorem good_spc : goodChar spc = true := by decide

theorem good_nl : goodChar nl = true := by decide

theorem mid_good {s : List Char}
    (h : ∀ c ∈ s, removableCtrl c = false ∧ c ≠ enDash ∧ c ≠ emDash ∧ c ≠ hellip) :
    ∀ c ∈ remove_mid_sentence_newlines s, goodChar c = true := by
  intro c hc
  rw [mid_eq] at hc
  rcases mem_paraGo _ _ (Nat.le_refl _) 0 hc with h1 | h1
  · rw [h1]; exact good_nl
  · rcases mem_breakGo _ false h1 with h2 | h2
    · rw [h2]; exact good_nl
    · exact m2_fact h c (mem_pyStrip_sub h2)

theorem stages_good (pp : Bool) (ml : Nat) (z : List Char) :
    ∀ c ∈ pyStrip (remove_empty_lines ml (remove_mid_sentence_newlines
      (remove_excessive_newlines pp (normalize_whitespace
        (clean_special_characters (fix_common_encoding_issues
          (remove_control_characters z))))))), goodChar c = true := by
  intro c hc
  have h3 := clean_fact (ctrl_fact2 (ctrl_fact1 z))
  have h5 := excessive_fact pp (normWs_fact h3)
  have hmid := mid_good h5
  have hc2 := mem_pyStrip_sub hc
  rcases mem_remove_empty hc2 with h1 | h1
  · rw [h1]; exact good_nl
  · exact hmid c h1

/-- No space directly after sentence punctuation. -/
def noPunctSpc (a b : Char) : Prop := b = spc → punctB a = false

/-- The adjacency facts that hold after the paragraph substitution: a
newline follows punctuation or another newline, no space follows
punctuation, and adjacent whitespace characters are both newlines. -/
def midPair (a b : Char) : Prop :=
  (b = nl → punctB a = true ∨ a = nl) ∧ noPunctSpc a b ∧ wsPairNl a b

/-- The adjacency facts of the final output: every newline follows
punctuation, no space follows punctuation, and no two adjacent whitespace
characters at all. -/
def yROut (a b : Char) : Prop := nlAfterPunct a b ∧ noPunctSpc a b ∧ noWsPair a b

theorem pairsOK_and {R S : Char → Char → Prop} :
    ∀ {s : List Char}, pairsOK R s → pairsOK S s →
      pairsOK (fun a b => R a b ∧ S a b) s := by
  intro s
  induction s with
  | nil =>
    intro _ _
    trivial
  | cons c r ih =>
    intro hR hS
    cases r with
    | nil => trivial
    | cons d t =>
      exact ⟨⟨pairsOK_head hR, pairsOK_head hS⟩, ih (pairsOK_tail hR) (pairsOK_tail hS)⟩

theorem pairsOK_mono_mem {R S : Char → Char → Prop} :
    ∀ {s : List Char}, pairsOK R s → (∀ a b, b ∈ s → R a b → S a b) → pairsOK S s := by
  intro s
  induction s with
  | nil =>
    intro _ _
    trivial
  | cons c r ih =>
    intro hp hmem
    cases r with
    | nil => trivial
    | cons d t =>
      refine ⟨hmem c d (List.mem_cons_of_mem c (List.mem_cons_self d t)) (pairsOK_head hp), ?_⟩
      exact ih (pairsOK_tail hp) (fun a b hb hab => hmem a b (List.mem_cons_of_mem c hb) hab)

theorem break_head_ws (y : List Char) :
    (∀ cf, (breakGo true y).head? = some cf → isPySpaceB cf = false) ∧
    (breakGo false y).head? = y.head? := by
  induction y with
  | nil =>
    refine ⟨?_, rfl⟩
    intro cf h
    simp [breakGo] at h
  | cons c r ih =>
    by_cases hw : isPySpaceB c = true
    · have hskip : breakGo true (c :: r) = breakGo true r := by
        simp [breakGo, hw]
      have hpunct : punctB c = false := by
        cases hv : punctB c
        · rfl
        · rw [punct_not_ws hv] at hw
          exact Bool.noConfusion hw
      have hfalse : breakGo false (c :: r) = c :: breakGo false r := by
        simp [breakGo, hw, hpunct]
      refine ⟨?_, by rw [hfalse]; rfl⟩
      intro cf hcf
      rw [hskip] at hcf
      exact ih.1 cf hcf
    · have hw' : isPySpaceB c = false := by
        cases hv : isPySpaceB c
        · rfl
        · exact absurd hv hw
      have hst : breakGo true (c :: r) = breakGo false (c :: r) := by
        simp only [breakGo]
        rw [hw']
        simp only [Bool.and_false, Bool.false_and]
      have hcons : ∃ z, breakGo false (c :: r) = c :: z := by
        simp only [breakGo, Bool.false_and, Bool.false_eq_true, if_false]
        split
        · exact ⟨nl :: breakGo true r, rfl⟩
        · exact ⟨breakGo false r, rfl⟩
      rcases hcons with ⟨z, hz⟩
      refine ⟨?_, by rw [hz]; rfl⟩
      intro cf hcf
      rw [hst, hz] at hcf
      simp only [List.head?_cons, Option.some.injEq] at hcf
      rw [← hcf]
      exact hw'

theorem break_noPunctSpc (y : List Char) :
    ∀ st : Bool, pairsOK noPunctSpc (breakGo st y) := by
  induction y with
  | nil =>
    intro st
    trivial
  | cons c r ih =>
    intro st
    by_cases hw : isPySpaceB c = true
    · have hpunct : punctB c = false := by
        cases hv : punctB c
        · rfl
        · rw [punct_not_ws hv] at hw
          exact Bool.noConfusion hw
      cases st with
      | true =>
        have hskip : breakGo true (c :: r) = breakGo true r := by
          simp [breakGo, hw]
        rw [hskip]
        exact ih true
      | false =>
        have hfalse : breakGo false (c :: r) = c :: breakGo false r := by
          simp [breakGo, hw, hpunct]
        rw [hfalse]
        apply pairsOK_cons
        · intro b hb hspc
          exact hpunct
        · exact ih false
    · have hw' : isPySpaceB c = false := by
        cases hv : isPySpaceB c
        · rfl
        · exact absurd hv hw
      have hst : ∀ st2 : Bool, breakGo st2 (c :: r) = breakGo false (c :: r) := by
        intro st2
        cases st2 with
        | false => rfl
        | true =>
          simp only [breakGo]
          rw [hw']
          simp only [Bool.and_false, Bool.false_and]
      rw [hst st]
      cases r with
      | nil =>
        have hout : breakGo false [c] = [c] := by
          simp [breakGo]
        rw [hout]
        exact pairsOK_single
      | cons d t =>
        have hout : breakGo false (c :: d :: t) =
            if (punctB c && isPySpaceB d) = true then c :: nl :: breakGo true (d :: t)
            else c :: breakGo false (d :: t) := by
          simp only [breakGo, Bool.false_and, Bool.false_eq_true, if_false]
        by_cases hcond : (punctB c && isPySpaceB d) = true
        · rw [if_pos hcond] at hout
          rw [hout]
          apply pairsOK_cons
          · intro b hb
            simp only [List.head?_cons, Option.some.injEq] at hb
            rw [← hb]
            intro hspc
            exact absurd hspc (by decide)
          · apply pairsOK_cons
            · intro b hb hspc
              decide
            · exact ih true
        · rw [if_neg hcond] at hout
          rw [hout]
          apply pairsOK_cons
          · intro b hb
            rw [(break_head_ws (d :: t)).2] at hb
            simp only [List.head?_cons, Option.some.injEq] at hb
            rw [← hb]
            intro hspc
            subst hspc
            cases hv : punctB c
            · rfl
            · exact absurd (by rw [hv]; decide) hcond
          · exact ih false

theorem midPair_nl_nl : midPair nl nl :=
  ⟨fun _ => Or.inr rfl, fun h => absurd h (by decide), fun _ _ => ⟨rfl, rfl⟩⟩

/-- The paragraph substitution preserves every adjacency relation that
accepts a doubled newline, and never changes the first character. -/
theorem para_preserve {R : Char → Char → Prop} (hRnl : R nl nl) :
    ∀ (n : Nat) (y : List Char), y.length ≤ n → pairsOK R y →
      pairsOK R (paraGo 0 y) ∧ (paraGo 0 y).head? = y.head? := by
  intro n
  induction n with
  | zero =>
    intro y hy _
    have hnil : y = [] := List.length_eq_zero.mp (Nat.le_zero.mp hy)
    subst hnil
    exact ⟨trivial, rfl⟩
  | succ n ihn =>
    intro y hy hp
    cases y with
    | nil => exact ⟨trivial, rfl⟩
    | cons c r =>
      have hr : r.length ≤ n := by
        simp only [List.length_cons] at hy
        omega
      by_cases hc : c = nl
      · subst hc
        cases hcm : capMatch r with
        | none =>
          have e1 : paraGo 0 (nl :: r) = nl :: paraGo 0 r := by
            simp [paraGo, hcm]
          rw [e1]
          refine ⟨?_, rfl⟩
          apply pairsOK_cons
          · intro b hb
            rw [(ihn r hr (pairsOK_tail hp)).2] at hb
            cases r with
            | nil => simp at hb
            | cons d t =>
              simp only [List.head?_cons, Option.some.injEq] at hb
              rw [← hb]
              exact pairsOK_head hp
          · exact (ihn r hr (pairsOK_tail hp)).1
        | some m =>
          rcases capMatch_decomp hcm with ⟨cm, mrest, rest, hm, hupper, hsplit⟩
          have e1 : paraGo 0 (nl :: r) = nl :: nl :: (m ++ paraGo m.length r) := by
            simp [paraGo, hcm]
          have e2 : paraGo m.length r = paraGo 0 rest := by
            rw [hsplit]
            exact paraGo_append m rest
          rw [e1, e2]
          have hpr : pairsOK R r := pairsOK_tail hp
          have hprest : pairsOK R rest := by
            rw [hsplit] at hpr
            exact pairsOK_of_suffix hpr
          have hrest_len : rest.length ≤ n := by
            have hle : rest.length ≤ r.length := by
              rw [hsplit]
              simp
            omega
          have ihrest := ihn rest hrest_len hprest
          refine ⟨?_, rfl⟩
          apply pairsOK_cons
          · intro b hb
            simp only [List.append_eq, List.cons_append, List.head?_cons,
              Option.some.injEq] at hb
            rw [← hb]
            exact hRnl
          · apply pairsOK_cons
            · intro b hb
              rw [hm] at hb
              simp only [List.append_eq, List.cons_append, List.head?_cons,
                Option.some.injEq] at hb
              rw [← hb]
              have hp2 : pairsOK R (nl :: cm :: (mrest ++ rest)) := by
                have he : nl :: r = nl :: cm :: (mrest ++ rest) := by
                  rw [hsplit, hm]
                  rfl
                rw [← he]
                exact hp
              exact pairsOK_head hp2
            · apply pairsOK_append
              · have hm2 : pairsOK R m := by
                  rw [hsplit] at hpr
                  exact pairsOK_of_prefix hpr
                exact hm2
              · exact ihrest.1
              · intro a b ha hb
                rw [ihrest.2] at hb
                rw [hsplit] at hpr
                exact pairs_append_boundary hpr a b ha hb
      · have e1 : paraGo 0 (c :: r) = c :: paraGo 0 r := by
          simp [paraGo, hc]
        rw [e1]
        refine ⟨?_, rfl⟩
        apply pairsOK_cons
        · intro b hb
          rw [(ihn r hr (pairsOK_tail hp)).2] at hb
          cases r with
          | nil => simp at hb
          | cons d t =>
            simp only [List.head?_cons, Option.some.injEq] at hb
            rw [← hb]
            exact pairsOK_head hp
        · exact (ihn r hr (pairsOK_tail hp)).1

/-- The mid-sentence stage's output satisfies the combined adjacency
relation for every input. -/
theorem mid_midPair (s : List Char) :
    pairsOK midPair (remove_mid_sentence_newlines s) := by
  rw [mid_eq]
  have hnlfree : nl ∉ pyStrip (wsPlusToSpace (nlPlusToSpace s)) := by
    intro hmem
    exact wsPlus_no_nl (nlPlusToSpace s) false (mem_pyStrip_sub hmem)
  have hnoWs : pairsOK noWsPair (pyStrip (wsPlusToSpace (nlPlusToSpace s))) :=
    pairsOK_pyStrip ((wsPlus_pairs (nlPlusToSpace s) false).1)
  have hb1 := (break_nlAfterPunct (pyStrip (wsPlusToSpace (nlPlusToSpace s))) hnlfree false).1
  have hb2 := break_noPunctSpc (pyStrip (wsPlusToSpace (nlPlusToSpace s))) false
  have hb3 := (break_pairs (pyStrip (wsPlusToSpace (nlPlusToSpace s))) false hnoWs).1
  have h12 := pairsOK_and hb1 hb2
  have h123 := pairsOK_and h12 hb3
  have hcomb : pairsOK midPair (breakAfterPunct (pyStrip (wsPlusToSpace (nlPlusToSpace s)))) := by
    apply pairsOK_mono _ h123
    intro a b hab
    exact ⟨fun hbn => Or.inl (hab.1.1 hbn), hab.1.2, noWsPair_imp_wsPairNl a b hab.2⟩
  exact (para_preserve midPair_nl_nl
    (breakAfterPunct (pyStrip (wsPlusToSpace (nlPlusToSpace s)))).length _
    (Nat.le_refl _) hcomb).1

theorem mem_of_mem_dropLast {α : Type} {S : List α} {a : α} (h : a ∈ S.dropLast) :
    a ∈ S := by
  induction S with
  | nil => simp at h
  | cons c r ih =>
    cases r with
    | nil => simp at h
    | cons d t =>
      rw [List.dropLast_cons₂] at h
      rcases List.mem_cons.mp h with h1 | h1
      · rw [h1]
        exact List.mem_cons_self _ _
      · exact List.mem_cons_of_mem c (ih h1)

/-- The final output of the line filter, join and strip satisfies the
combined output adjacency relation. -/
theorem out_yR (ml : Nat) (s : List Char) :
    pairsOK yROut (pyStrip (remove_empty_lines ml (remove_mid_sentence_newlines s))) := by
  apply pairsOK_pyStrip
  unfold remove_empty_lines
  have hmid := mid_midPair s
  apply pairsOK_joinNl_parts
  · intro l hl
    exact keepLine_ne_nil (List.of_mem_filter hl)
  · intro l hl
    have hnl : nl ∉ l := mem_splitNl_no_nl (List.mem_of_mem_filter hl)
    have hml := pairsOK_mem_splitNl _ hmid l (List.mem_of_mem_filter hl)
    apply pairsOK_mono_mem hml
    intro a b hb hab
    refine ⟨?_, hab.2.1, ?_⟩
    · intro hbn
      exact absurd (hbn ▸ hb) hnl
    · intro hcontra
      rcases hab.2.2 hcontra.1 hcontra.2 with ⟨ha2, hb2⟩
      exact hnl (hb2 ▸ hb)
  · intro l hl a ha
    have hldl := mem_dropLast_filter hl
    have hlmem : l ∈ splitNl (remove_mid_sentence_newlines s) := mem_of_mem_dropLast hldl
    have hnl : nl ∉ l := mem_splitNl_no_nl hlmem
    have hane : a ≠ nl := by
      intro he
      exact hnl (he ▸ getLast?_eq_mem ha)
    have hpr : midPair a nl :=
      containsSeq_pair (linesInit_last _ l a hldl ha) hmid
    refine ⟨?_, ?_, ?_⟩
    · intro _
      rcases hpr.1 rfl with h1 | h1
      · exact h1
      · exact absurd h1 hane
    · intro hspc
      exact absurd hspc (by decide)
    · intro hcontra
      rcases hpr.2.2 hcontra.1 hcontra.2 with ⟨h1, h2⟩
      exact hane h1
  · intro l hl b hb
    have hltl := mem_tail_filter hl
    have hlmem : l ∈ splitNl (remove_mid_sentence_newlines s) := mem_of_mem_tail hltl
    have hnl : nl ∉ l := mem_splitNl_no_nl hlmem
    have hbne : b ≠ nl := by
      intro he
      exact hnl (he ▸ head?_eq_mem hb)
    have hpr : midPair nl b :=
      containsSeq_pair (linesTail_head _ l b hltl hb) hmid
    refine ⟨?_, ?_, ?_⟩
    · intro hbn
      exact absurd hbn hbne
    · intro hspc
      decide
    · intro hcontra
      rcases hpr.2.2 hcontra.1 hcontra.2 with ⟨h1, h2⟩
      exact hbne h2

theorem filter_all {α : Type} {p : α → Bool} :
    ∀ {S : List α}, (∀ l ∈ S, p l = true) → S.filter p = S := by
  intro S
  induction S with
  | nil =>
    intro _
    rfl
  | cons a t ih =>
    intro h
    rw [List.filter_cons, h a (List.mem_cons_self a t), if_pos rfl]
    rw [ih (fun x hx => h x (List.mem_cons_of_mem a hx))]

theorem remove_control_eq_self {s : List Char} (h : ∀ c ∈ s, removableCtrl c = false) :
    remove_control_characters s = s := by
  unfold remove_control_characters
  apply filter_all
  intro c hc
  rw [h c hc]
  rfl

theorem pyRepGo_id_no_pat {p : Char} {rep : List Char} :
    ∀ s : List Char, p ∉ s → pyRepGo [p] rep 0 s = s := by
  intro s
  induction s with
  | nil =>
    intro _
    rfl
  | cons d r ih =>
    intro hp
    have hd : p ≠ d := fun he => hp (by rw [he]; exact List.mem_cons_self d r)
    have hsw : startsWithSeq [p] (d :: r) = (p == d) := by
      simp [startsWithSeq]
    simp only [pyRepGo]
    rw [hsw, if_neg (by simp [hd])]
    rw [ih (fun hm => hp (List.mem_cons_of_mem d hm))]

theorem map_dashFix_id {s : List Char} (h : ∀ c ∈ s, c ≠ enDash ∧ c ≠ emDash) :
    List.map dashFix s = s := by
  induction s with
  | nil => rfl
  | cons c r ih =>
    have hc := h c (List.mem_cons_self c r)
    have hfix : dashFix c = c := by
      unfold dashFix
      split
      · rename_i hcond
        simp only [Bool.or_eq_true, decide_eq_true_eq] at hcond
        rcases hcond with h1 | h1
        · exact absurd h1 hc.1
        · exact absurd h1 hc.2
      · rfl
    simp only [List.map_cons, hfix]
    rw [ih (fun x hx => h x (List.mem_cons_of_mem c hx))]

theorem clean_eq_self {s : List Char}
    (h : ∀ c ∈ s, c ≠ enDash ∧ c ≠ emDash ∧ c ≠ hellip) :
    clean_special_characters s = s := by
  rw [clean_eq, map_dashFix_id (fun c hc => ⟨(h c hc).1, (h c hc).2.1⟩)]
  unfold pyReplace
  rw [if_neg (by simp)]
  apply pyRepGo_id_no_pat
  intro hm
  exact (h hellip hm).2.2 rfl

theorem dropWhile_eq_self {p : Char → Bool} {s : List Char}
    (h : ∀ b, s.head? = some b → p b = false) : List.dropWhile p s = s := by
  cases s with
  | nil => rfl
  | cons c r =>
    rw [List.dropWhile_cons, h c rfl]
    simp

theorem rdropWhile_eq_self {p : Char → Bool} :
    ∀ {s : List Char}, (∀ a, s.getLast? = some a → p a = false) → rdropWhile p s = s := by
  intro s
  induction s with
  | nil =>
    intro _
    rfl
  | cons c r ih =>
    intro h
    cases r with
    | nil =>
      have hgl : (c :: ([] : List Char)).getLast? = some c := by simp
      have hc := h c hgl
      simp [rdropWhile, hc]
    | cons d t =>
      have hih : rdropWhile p (d :: t) = d :: t :=
        ih (fun a ha => h a (by rw [List.getLast?_cons_cons]; exact ha))
      show (if (rdropWhile p (d :: t)).isEmpty && p c then []
          else c :: rdropWhile p (d :: t)) = c :: d :: t
      rw [hih]
      simp

theorem pyStrip_eq_self {s : List Char}
    (h1 : ∀ b, s.head? = some b → isPySpaceB b = false)
    (h2 : ∀ a, s.getLast? = some a → isPySpaceB a = false) : pyStrip s = s := by
  unfold pyStrip
  rw [dropWhile_eq_self h1]
  exact rdropWhile_eq_self h2

theorem map_id_of {α : Type} {f : α → α} :
    ∀ {S : List α}, (∀ x ∈ S, f x = x) → List.map f S = S := by
  intro S
  induction S with
  | nil =>
    intro _
    rfl
  | cons a t ih =>
    intro h
    simp only [List.map_cons, h a (List.mem_cons_self a t)]
    rw [ih (fun x hx => h x (List.mem_cons_of_mem a hx))]

theorem rstripLines_eq_self {s : List Char}
    (h : ∀ l ∈ splitNl s, ∀ a, l.getLast? = some a → spTabB a = false) :
    rstripLines s = s := by
  unfold rstripLines
  have hmap : List.map rstripSpTab (splitNl s) = splitNl s := by
    apply map_id_of
    intro l hl
    exact rdropWhile_eq_self (h l hl)
  rw [hmap, joinNl_splitNl]

theorem collapseSpTabGo_id :
    ∀ s : List Char, (∀ c ∈ s, spTabB c = true → c = spc) → pairsOK noWsPair s →
      collapseSpTabGo false s = s ∧
      ((∀ d, s.head? = some d → isPySpaceB d = false) → collapseSpTabGo true s = s) := by
  intro s
  induction s with
  | nil =>
    intro _ _
    exact ⟨rfl, fun _ => rfl⟩
  | cons c r ih =>
    intro hsp hp
    have ihr := ih (fun x hx => hsp x (List.mem_cons_of_mem c hx)) (pairsOK_tail hp)
    constructor
    · by_cases hct : spTabB c = true
      · have hcspc : c = spc := hsp c (List.mem_cons_self c r) hct
        have hgo : collapseSpTabGo false (c :: r) = spc :: collapseSpTabGo true r := by
          simp [collapseSpTabGo, hct]
        rw [hgo]
        have htr : collapseSpTabGo true r = r := by
          apply ihr.2
          intro d hd
          cases r with
          | nil => simp at hd
          | cons d2 t =>
            simp only [List.head?_cons, Option.some.injEq] at hd
            subst hd
            have hpair : noWsPair c d2 := pairsOK_head hp
            cases hv : isPySpaceB d2
            · rfl
            · exfalso
              apply hpair
              refine ⟨?_, hv⟩
              rw [hcspc]
              decide
        rw [htr, hcspc]
      · have hgo : collapseSpTabGo false (c :: r) = c :: collapseSpTabGo false r := by
          simp [collapseSpTabGo, hct]
        rw [hgo, ihr.1]
    · intro hhead
      have hcw : isPySpaceB c = false := hhead c rfl
      have hct : spTabB c = false := by
        cases hv : spTabB c
        · rfl
        · rw [spTab_ws hv] at hcw
          exact Bool.noConfusion hcw
      have hgo : collapseSpTabGo true (c :: r) = c :: collapseSpTabGo false r := by
        simp [collapseSpTabGo, hct]
      rw [hgo, ihr.1]

theorem wsPlusGo_id :
    ∀ s : List Char, (∀ c ∈ s, isPySpaceB c = true → c = spc) → pairsOK noWsPair s →
      wsPlusToSpaceGo false s = s ∧
      ((∀ d, s.head? = some d → isPySpaceB d = false) → wsPlusToSpaceGo true s = s) := by
  intro s
  induction s with
  | nil =>
    intro _ _
    exact ⟨rfl, fun _ => rfl⟩
  | cons c r ih =>
    intro hsp hp
    have ihr := ih (fun x hx => hsp x (List.mem_cons_of_mem c hx)) (pairsOK_tail hp)
    constructor
    · by_cases hct : isPySpaceB c = true
      · have hcspc : c = spc := hsp c (List.mem_cons_self c r) hct
        have hgo : wsPlusToSpaceGo false (c :: r) = spc :: wsPlusToSpaceGo true r := by
          simp [wsPlusToSpaceGo, hct]
        rw [hgo]
        have htr : wsPlusToSpaceGo true r = r := by
          apply ihr.2
          intro d hd
          cases r with
          | nil => simp at hd
          | cons d2 t =>
            simp only [List.head?_cons, Option.some.injEq] at hd
            subst hd
            have hpair : noWsPair c d2 := pairsOK_head hp
            cases hv : isPySpaceB d2
            · rfl
            · exact absurd ⟨hct, hv⟩ hpair
        rw [htr, hcspc]
      · have hct' : isPySpaceB c = false := by
          cases hv : isPySpaceB c
          · rfl
          · exact absurd hv hct
        have hgo : wsPlusToSpaceGo false (c :: r) = c :: wsPlusToSpaceGo false r := by
          simp [wsPlusToSpaceGo, hct']
        rw [hgo, ihr.1]
    · intro hhead
      have hcw : isPySpaceB c = false := hhead c rfl
      have hgo : wsPlusToSpaceGo true (c :: r) = c :: wsPlusToSpaceGo false r := by
        simp [wsPlusToSpaceGo, hcw]
      rw [hgo, ihr.1]

theorem crlfToNl_id : ∀ s : List Char, cr ∉ s → crlfToNl s = s := by
  intro s
  induction s with
  | nil =>
    intro _
    rfl
  | cons c r ih =>
    intro h
    have hc : ¬(c = cr) := fun he => by
      rw [he] at h
      exact h (List.mem_cons_self cr r)
    have hr : cr ∉ r := fun hm => h (List.mem_cons_of_mem c hm)
    cases r with
    | nil =>
      show (if c = cr then [nl] else [c]) = [c]
      rw [if_neg hc]
    | cons d t =>
      show (if c = cr then (if d = nl then nl :: crlfToNl t else nl :: crlfToNl (d :: t))
          else c :: crlfToNl (d :: t)) = c :: d :: t
      rw [if_neg hc, ih hr]

theorem noDD_tail {c : Char} {r : List Char}
    (h : containsSeq [nl, nl] (c :: r) = false) : containsSeq [nl, nl] r = false := by
  simp only [containsSeq, Bool.or_eq_false_iff] at h
  exact h.2

theorem noDD_head {r : List Char} (h : containsSeq [nl, nl] (nl :: r) = false) :
    ∀ d, r.head? = some d → d ≠ nl := by
  intro d hd he
  subst he
  cases r with
  | nil => simp at hd
  | cons d2 t =>
    simp only [List.head?_cons, Option.some.injEq] at hd
    have hsw : startsWithSeq [nl, nl] (nl :: d2 :: t) = true := by
      rw [hd]
      simp [startsWithSeq]
    simp only [containsSeq, Bool.or_eq_false_iff] at h
    rw [hsw] at h
    exact Bool.noConfusion h.1

theorem collapseNl3Go_id :
    ∀ s : List Char, containsSeq [nl, nl] s = false →
      collapseNl3Go 0 s = s ∧
      ((∀ d, s.head? = some d → d ≠ nl) → ∀ k, collapseNl3Go k s = s) := by
  intro s
  induction s with
  | nil =>
    intro _
    exact ⟨rfl, fun _ _ => rfl⟩
  | cons c r ih =>
    intro h
    have ihr := ih (noDD_tail h)
    constructor
    · by_cases hc : c = nl
      · subst hc
        have hgo : collapseNl3Go 0 (nl :: r) = nl :: collapseNl3Go 1 r := by
          simp [collapseNl3Go]
        rw [hgo, ihr.2 (noDD_head h) 1]
      · have hgo : collapseNl3Go 0 (c :: r) = c :: collapseNl3Go 0 r := by
          simp [collapseNl3Go, hc]
        rw [hgo, ihr.1]
    · intro hhead k
      have hc : c ≠ nl := hhead c rfl
      have hgo : collapseNl3Go k (c :: r) = c :: collapseNl3Go 0 r := by
        simp [collapseNl3Go, hc]
      rw [hgo, ihr.1]

theorem collapseNl2Go_id :
    ∀ s : List Char, containsSeq [nl, nl] s = false →
      collapseNl2Go false s = s ∧
      ((∀ d, s.head? = some d → d ≠ nl) → ∀ b, collapseNl2Go b s = s) := by
  intro s
  induction s with
  | nil =>
    intro _
    exact ⟨rfl, fun _ _ => rfl⟩
  | cons c r ih =>
    intro h
    have ihr := ih (noDD_tail h)
    constructor
    · by_cases hc : c = nl
      · subst hc
        have hgo : collapseNl2Go false (nl :: r) = nl :: collapseNl2Go true r := by
          simp [collapseNl2Go]
        rw [hgo, ihr.2 (noDD_head h) true]
      · have hgo : collapseNl2Go false (c :: r) = c :: collapseNl2Go false r := by
          simp [collapseNl2Go, hc]
        rw [hgo, ihr.1]
    · intro hhead b
      have hc : c ≠ nl := hhead c rfl
      have hgo : collapseNl2Go b (c :: r) = c :: collapseNl2Go false r := by
        simp [collapseNl2Go, hc]
      rw [hgo, ihr.1]

theorem remove_excessive_id (pp : Bool) {s : List Char}
    (h : containsSeq [nl, nl] s = false) : remove_excessive_newlines pp s = s := by
  unfold remove_excessive_newlines
  cases pp with
  | true =>
    rw [if_pos rfl]
    exact (collapseNl3Go_id s h).1
  | false =>
    rw [if_neg (by simp)]
    exact (collapseNl2Go_id s h).1

/-- Replacing each newline by a space, pointwise. -/
def mapNlSpc (s : List Char) : List Char := s.map (fun c => if c = nl then spc else c)

theorem nlPlus_mapNlSpc :
    ∀ s : List Char, containsSeq [nl, nl] s = false →
      nlPlusToSpaceGo false s = mapNlSpc s ∧
      ((∀ d, s.head? = some d → d ≠ nl) → nlPlusToSpaceGo true s = mapNlSpc s) := by
  intro s
  induction s with
  | nil =>
    intro _
    exact ⟨rfl, fun _ => rfl⟩
  | cons c r ih =>
    intro h
    have ihr := ih (noDD_tail h)
    constructor
    · by_cases hc : c = nl
      · subst hc
        have hgo : nlPlusToSpaceGo false (nl :: r) = spc :: nlPlusToSpaceGo true r := by
          simp [nlPlusToSpaceGo]
        have hmap : mapNlSpc (nl :: r) = spc :: mapNlSpc r := by
          simp [mapNlSpc]
        rw [hgo, hmap, ihr.2 (noDD_head h)]
      · have hgo : nlPlusToSpaceGo false (c :: r) = c :: nlPlusToSpaceGo false r := by
          simp [nlPlusToSpaceGo, hc]
        have hmap : mapNlSpc (c :: r) = c :: mapNlSpc r := by
          simp [mapNlSpc, hc]
        rw [hgo, hmap, ihr.1]
    · intro hhead
      have hc : c ≠ nl := hhead c rfl
      have hgo : nlPlusToSpaceGo true (c :: r) = c :: nlPlusToSpaceGo false r := by
        simp [nlPlusToSpaceGo, hc]
      have hmap : mapNlSpc (c :: r) = c :: mapNlSpc r := by
        simp [mapNlSpc, hc]
      rw [hgo, hmap, ihr.1]

theorem mapNlSpc_head (s : List Char) :
    (mapNlSpc s).head? = s.head?.map (fun c => if c = nl then spc else c) := by
  cases s with
  | nil => rfl
  | cons c r => rfl

theorem mapNlSpc_getLast : ∀ s : List Char,
    (mapNlSpc s).getLast? = s.getLast?.map (fun c => if c = nl then spc else c) := by
  intro s
  induction s with
  | nil => rfl
  | cons c r ih =>
    cases r with
    | nil => simp [mapNlSpc]
    | cons d t =>
      have h1 : mapNlSpc (c :: d :: t) =
          (if c = nl then spc else c) :: mapNlSpc (d :: t) := rfl
      rw [h1]
      have h2 : ((if c = nl then spc else c) :: mapNlSpc (d :: t)).getLast? =
          (mapNlSpc (d :: t)).getLast? := by
        have h3 : mapNlSpc (d :: t) = (if d = nl then spc else d) :: mapNlSpc t := rfl
        rw [h3, List.getLast?_cons_cons]
      rw [h2, ih, List.getLast?_cons_cons]

theorem pairsOK_map {R S : Char → Char → Prop} {f : Char → Char}
    (hf : ∀ a b, R a b → S (f a) (f b)) :
    ∀ {s : List Char}, pairsOK R s → pairsOK S (List.map f s) := by
  intro s
  induction s with
  | nil =>
    intro _
    trivial
  | cons c r ih =>
    intro hp
    cases r with
    | nil => trivial
    | cons d t =>
      exact ⟨hf c d (pairsOK_head hp), ih (pairsOK_tail hp)⟩

theorem ws_mapNl (d : Char) :
    isPySpaceB (if d = nl then spc else d) = isPySpaceB d := by
  by_cases hd : d = nl
  · rw [if_pos hd, hd]
    decide
  · rw [if_neg hd]

/-- Reconstruction: on text where every newline stands after punctuation,
no space follows punctuation, no two whitespace characters are adjacent,
all whitespace is spaces or newlines, and the first character is not a
newline, mapping newlines to spaces and re-running the break step restores
the text exactly. -/
theorem breakRecon : ∀ n : Nat, ∀ s : List Char, s.length ≤ n →
    pairsOK nlAfterPunct s → pairsOK noPunctSpc s → pairsOK noWsPair s →
    (∀ c ∈ s, isPySpaceB c = true → c = spc ∨ c = nl) →
    (∀ d, s.head? = some d → d ≠ nl) →
    breakGo false (mapNlSpc s) = s := by
  intro n
  induction n with
  | zero =>
    intro s hs _ _ _ _ _
    rw [List.length_eq_zero.mp (Nat.le_zero.mp hs)]
    rfl
  | succ n ihn =>
    intro s hs hA hB hC hws hhead
    cases s with
    | nil => rfl
    | cons c r =>
      have hcnl : c ≠ nl := hhead c rfl
      have hmap : mapNlSpc (c :: r) = c :: mapNlSpc r := by
        simp [mapNlSpc, hcnl]
      rw [hmap]
      cases r with
      | nil =>
        simp [breakGo, mapNlSpc]
      | cons d r2 =>
        have hlen : (d :: r2).length ≤ n := by
          simp only [List.length_cons] at hs ⊢
          omega
        have hmap2 : mapNlSpc (d :: r2) = (if d = nl then spc else d) :: mapNlSpc r2 := rfl
        by_cases hcond : punctB c = true ∧ isPySpaceB d = true
        · have hdnl : d = nl := by
            rcases hws d (List.mem_cons_of_mem c (List.mem_cons_self d r2)) hcond.2 with
              h1 | h1
            · exfalso
              have hpc := (pairsOK_head hB : noPunctSpc c d) h1
              rw [hpc] at hcond
              exact Bool.noConfusion hcond.1
            · exact h1
          subst hdnl
          have hmap3 : mapNlSpc (nl :: r2) = spc :: mapNlSpc r2 := by
            simp [mapNlSpc]
          rw [hmap3]
          have hfire : breakGo false (c :: spc :: mapNlSpc r2) =
              c :: nl :: breakGo true (spc :: mapNlSpc r2) := by
            simp only [breakGo, Bool.false_and, Bool.false_eq_true, if_false]
            rw [if_pos (by rw [hcond.1]; decide)]
          rw [hfire]
          have hsp : isPySpaceB spc = true := by decide
          have hskip : breakGo true (spc :: mapNlSpc r2) = breakGo true (mapNlSpc r2) := by
            simp [breakGo, hsp]
          rw [hskip]
          have hr2head : ∀ e, r2.head? = some e → isPySpaceB e = false := by
            intro e he
            cases r2 with
            | nil => simp at he
            | cons e2 t2 =>
              simp only [List.head?_cons, Option.some.injEq] at he
              subst he
              have hpair : noWsPair nl e2 := pairsOK_head (pairsOK_tail hC)
              cases hv : isPySpaceB e2
              · rfl
              · exact absurd ⟨by decide, hv⟩ hpair
          have htf : breakGo true (mapNlSpc r2) = breakGo false (mapNlSpc r2) := by
            cases r2 with
            | nil => rfl
            | cons e t2 =>
              have hew : isPySpaceB e = false := hr2head e rfl
              have henl : e ≠ nl := by
                intro hee
                rw [hee] at hew
                exact absurd hew (by decide)
              have hmap4 : mapNlSpc (e :: t2) = e :: mapNlSpc t2 := by
                simp [mapNlSpc, henl]
              rw [hmap4]
              simp only [breakGo]
              rw [hew]
              simp only [Bool.and_false, Bool.false_and]
          rw [htf]
          have hr2len : r2.length ≤ n := by
            simp only [List.length_cons] at hlen
            omega
          rw [ihn r2 hr2len (pairsOK_tail (pairsOK_tail hA))
            (pairsOK_tail (pairsOK_tail hB)) (pairsOK_tail (pairsOK_tail hC))
            (fun x hx hwx =>
              hws x (List.mem_cons_of_mem c (List.mem_cons_of_mem nl hx)) hwx)
            (fun e he => by
              have hef := hr2head e he
              intro hee
              rw [hee] at hef
              exact absurd hef (by decide))]
        · have hcond2 : (punctB c && isPySpaceB (if d = nl then spc else d)) = false := by
            rw [ws_mapNl]
            cases hv : punctB c
            · rfl
            · cases hv2 : isPySpaceB d
              · rfl
              · exact absurd ⟨hv, hv2⟩ hcond
          have hdnl : d ≠ nl := by
            intro hdn
            apply hcond
            constructor
            · exact (pairsOK_head hA : nlAfterPunct c d) hdn
            · rw [hdn]
              decide
          have hnofire : breakGo false (c :: mapNlSpc (d :: r2)) =
              c :: breakGo false (mapNlSpc (d :: r2)) := by
            rw [hmap2]
            simp only [breakGo, Bool.false_and, Bool.false_eq_true, if_false]
            rw [if_neg (by rw [hcond2]; simp)]
          rw [hnofire]
          rw [ihn (d :: r2) hlen (pairsOK_tail hA) (pairsOK_tail hB) (pairsOK_tail hC)
            (fun x hx hwx => hws x (List.mem_cons_of_mem c hx) hwx)
            (fun e he => by
              simp only [List.head?_cons, Option.some.injEq] at he
              rw [he] at hdnl
              exact hdnl)]

theorem splitNl_cons_nl (w : List Char) : splitNl (nl :: w) = [] :: splitNl w := by
  simp [splitNl]

theorem splitNl_cons_of_ne {c : Char} (hc : c ≠ nl) (w : List Char)
    {l0 : List Char} {ls : List (List Char)} (hw : splitNl w = l0 :: ls) :
    splitNl (c :: w) = (c :: l0) :: ls := by
  simp only [splitNl, if_neg hc]
  rw [hw]

theorem filter_cons_cancel {p : List Char → Bool} {L0 : List Char}
    {A B : List (List Char)}
    (h : List.filter p (L0 :: A) = List.filter p (L0 :: B)) :
    List.filter p A = List.filter p B := by
  rw [List.filter_cons, List.filter_cons] at h
  split at h
  · simp only [List.cons.injEq] at h
    exact h.2
  · exact h

theorem mem_takeWhile_pred {p : Char → Bool} :
    ∀ {l : List Char} {x : Char}, x ∈ List.takeWhile p l → p x = true := by
  intro l
  induction l with
  | nil =>
    intro x h
    simp [List.takeWhile] at h
  | cons c r ih =>
    intro x h
    rw [List.takeWhile_cons] at h
    split at h
    · rcases List.mem_cons.mp h with h1 | h1
      · rename_i hc
        rw [h1]
        exact hc
      · exact ih h1
    · simp at h

theorem capMatch_no_nl {r m : List Char} (h : capMatch r = some m) : nl ∉ m := by
  cases r with
  | nil => simp [capMatch] at h
  | cons c rt =>
    simp only [capMatch] at h
    split at h
    · rename_i hupper
      split at h
      · exact absurd h (by simp)
      · split at h
        · rename_i d r2 hdrop
          split at h
          · rename_i hspc
            split at h
            · exact absurd h (by simp)
            · split at h
              · rename_i e r3 hdrop2
                split at h
                · rename_i hcomma
                  simp only [Option.some.injEq] at h
                  rw [← h]
                  intro hmem
                  simp only [List.append_eq, List.cons_append, List.append_assoc,
                    List.mem_cons, List.mem_append, List.mem_singleton] at hmem
                  rcases hmem with h1 | h1 | h1 | h1 | h1
                  · rw [← h1] at hupper
                    exact absurd hupper (by decide)
                  · exact absurd (mem_takeWhile_pred h1) (by decide)
                  · exact absurd h1 (by decide)
                  · exact absurd (mem_takeWhile_pred h1) (by decide)
                  · exact absurd h1 (by decide)
                · exact absurd h (by simp)
              · exact absurd h (by simp)
          · exact absurd h (by simp)
        · exact absurd h (by simp)
    · exact absurd h (by simp)

theorem splitNl_append_nlfree : ∀ {m : List Char}, nl ∉ m →
    ∀ {w l0 : List Char} {ls : List (List Char)}, splitNl w = l0 :: ls →
      splitNl (m ++ w) = (m ++ l0) :: ls := by
  intro m
  induction m with
  | nil =>
    intro _ w l0 ls hw
    simpa using hw
  | cons c r ih =>
    intro h w l0 ls hw
    have hc : c ≠ nl := fun he => h (by rw [← he]; exact List.mem_cons_self c r)
    have hr : nl ∉ r := fun hm => h (List.mem_cons_of_mem c hm)
    have hstep : (c :: r) ++ w = c :: (r ++ w) := rfl
    rw [hstep]
    simp only [splitNl, if_neg hc]
    rw [ih hr hw]
    rfl

/-- The paragraph substitution only inserts empty lines: after any line
filter that drops the empty line, its output and input filter to the same
lines, and the first line is unchanged. -/
theorem para_filtered {kp : List Char → Bool} (hkp : kp [] = false) :
    ∀ (n : Nat) (t : List Char), t.length ≤ n →
      List.filter kp (splitNl (paraGo 0 t)) = List.filter kp (splitNl t) ∧
      (splitNl (paraGo 0 t)).head? = (splitNl t).head? := by
  intro n
  induction n with
  | zero =>
    intro t ht
    rw [List.length_eq_zero.mp (Nat.le_zero.mp ht)]
    exact ⟨rfl, rfl⟩
  | succ n ihn =>
    intro t ht
    cases t with
    | nil => exact ⟨rfl, rfl⟩
    | cons c r =>
      have hr : r.length ≤ n := by
        simp only [List.length_cons] at ht
        omega
      by_cases hc : c = nl
      · subst hc
        cases hcm : capMatch r with
        | none =>
          have e1 : paraGo 0 (nl :: r) = nl :: paraGo 0 r := by
            simp [paraGo, hcm]
          rw [e1, splitNl_cons_nl, splitNl_cons_nl]
          constructor
          · simp only [List.filter_cons, hkp, Bool.false_eq_true, if_false]
            exact (ihn r hr).1
          · rfl
        | some m =>
          rcases capMatch_decomp hcm with ⟨cm, mrest, rest, hm, hupper, hsplit⟩
          have hmnl : nl ∉ m := capMatch_no_nl hcm
          have e1 : paraGo 0 (nl :: r) = nl :: nl :: (m ++ paraGo m.length r) := by
            simp [paraGo, hcm]
          have e2 : paraGo m.length r = paraGo 0 rest := by
            rw [hsplit]
            exact paraGo_append m rest
          have hrest_len : rest.length ≤ n := by
            have hle : rest.length ≤ r.length := by
              rw [hsplit]
              simp
            omega
          have ihrest := ihn rest hrest_len
          rcases hsp : splitNl (paraGo 0 rest) with _ | ⟨L0p, LSp⟩
          · exact absurd hsp (splitNl_ne_nil _)
          rcases hsr : splitNl rest with _ | ⟨L0r, LSr⟩
          · exact absurd hsr (splitNl_ne_nil _)
          have hL0 : L0p = L0r := by
            have hh := ihrest.2
            rw [hsp, hsr] at hh
            simpa using hh
          have hLS : List.filter kp LSp = List.filter kp LSr := by
            have hf := ihrest.1
            rw [hsp, hsr, hL0] at hf
            exact filter_cons_cancel hf
          rw [e1, e2]
          have e4 : splitNl (nl :: nl :: (m ++ paraGo 0 rest)) =
              [] :: [] :: (m ++ L0p) :: LSp := by
            rw [splitNl_cons_nl, splitNl_cons_nl, splitNl_append_nlfree hmnl hsp]
          have e5 : splitNl (nl :: r) = [] :: (m ++ L0r) :: LSr := by
            rw [splitNl_cons_nl, hsplit, splitNl_append_nlfree hmnl hsr]
          rw [e4, e5]
          constructor
          · simp only [List.filter_cons, hkp, Bool.false_eq_true, if_false, hL0]
            by_cases hk : kp (m ++ L0r) = true
            · rw [if_pos hk, if_pos hk, hLS]
            · rw [if_neg hk, if_neg hk]
              exact hLS
          · rfl
      · have e1 : paraGo 0 (c :: r) = c :: paraGo 0 r := by
          simp [paraGo, hc]
        rw [e1]
        rcases hsp : splitNl (paraGo 0 r) with _ | ⟨L0p, LSp⟩
        · exact absurd hsp (splitNl_ne_nil _)
        rcases hsr : splitNl r with _ | ⟨L0r, LSr⟩
        · exact absurd hsr (splitNl_ne_nil _)
        have hL0 : L0p = L0r := by
          have hh := (ihn r hr).2
          rw [hsp, hsr] at hh
          simpa using hh
        have hLS : List.filter kp LSp = List.filter kp LSr := by
          have hf := (ihn r hr).1
          rw [hsp, hsr, hL0] at hf
          exact filter_cons_cancel hf
        rw [splitNl_cons_of_ne hc (paraGo 0 r) hsp, splitNl_cons_of_ne hc r hsr]
        constructor
        · simp only [List.filter_cons, hL0]
          by_cases hk : kp (c :: L0r) = true
          · rw [if_pos hk, if_pos hk, hLS]
          · rw [if_neg hk, if_neg hk]
            exact hLS
        · rw [hL0]
          simp

theorem lines_last_not_ws {w : List Char} (hC : pairsOK noWsPair (pyStrip w)) :
    ∀ l ∈ splitNl (pyStrip w), ∀ a, l.getLast? = some a → isPySpaceB a = false := by
  intro l hl a ha
  rcases mem_dropLast_or_getLast hl with hdl | hlast
  · have hseq := linesInit_last (pyStrip w) l a hdl ha
    have hpr : noWsPair a nl := containsSeq_pair hseq hC
    cases hv : isPySpaceB a
    · rfl
    · exact absurd ⟨hv, by decide⟩ hpr
  · have hga := linesLast_last (pyStrip w) l a hlast ha
    unfold pyStrip at hga
    exact rdropWhile_getLast_false hga

theorem pyStrip_head_not_ws {w : List Char} :
    ∀ b, (pyStrip w).head? = some b → isPySpaceB b = false := by
  intro b hb
  unfold pyStrip at hb
  rcases rdropWhile_prefix isPySpaceB (List.dropWhile isPySpaceB w) with ⟨t, ht⟩
  cases hrv : rdropWhile isPySpaceB (List.dropWhile isPySpaceB w) with
  | nil =>
    rw [hrv] at hb
    simp at hb
  | cons x xs =>
    rw [hrv] at hb
    simp only [List.head?_cons, Option.some.injEq] at hb
    have hd : (List.dropWhile isPySpaceB w).head? = some x := by
      rw [ht, hrv]
      rfl
    rw [← hb]
    exact dropWhile_head_false hd

theorem pyStrip_last_not_ws {w : List Char} :
    ∀ a, (pyStrip w).getLast? = some a → isPySpaceB a = false := by
  intro a ha
  unfold pyStrip at ha
  exact rdropWhile_getLast_false ha

theorem remove_empty_fix (ml : Nat) (w : List Char) :
    remove_empty_lines ml (pyStrip (remove_empty_lines ml w)) =
      pyStrip (remove_empty_lines ml w) := by
  rcases hk : (splitNl w).filter (keepLine ml) with _ | ⟨k0, ks⟩
  · have he : remove_empty_lines ml w = [] := by
      unfold remove_empty_lines
      rw [hk]
      rfl
    rw [he]
    rfl
  · have hne : (splitNl w).filter (keepLine ml) ≠ [] := by
      rw [hk]
      simp
    have hprop : ∀ l ∈ (splitNl w).filter (keepLine ml), nl ∉ l ∧ pyStrip l ≠ [] := by
      intro l hl
      constructor
      · exact mem_splitNl_no_nl (List.mem_of_mem_filter hl)
      · have hkl := List.of_mem_filter hl
        intro hemp
        unfold keepLine at hkl
        rw [hemp] at hkl
        simp at hkl
    have hlines := lines_pyStrip_joinNl hne hprop
    have hall : ∀ l ∈ splitNl (pyStrip (remove_empty_lines ml w)),
        keepLine ml l = true := by
      intro l hl
      rcases hlines l hl with ⟨l0, hl0, heq⟩
      have hk0 := List.of_mem_filter hl0
      unfold keepLine at hk0 ⊢
      rw [heq]
      exact hk0
    have hfilt : (splitNl (pyStrip (remove_empty_lines ml w))).filter (keepLine ml) =
        splitNl (pyStrip (remove_empty_lines ml w)) := filter_all hall
    show joinNl ((splitNl (pyStrip (remove_empty_lines ml w))).filter (keepLine ml)) =
        pyStrip (remove_empty_lines ml w)
    rw [hfilt, joinNl_splitNl]

theorem goodChar_ctrl {c : Char} (h : goodChar c = true) : removableCtrl c = false := by
  unfold goodChar at h
  simp only [Bool.and_eq_true] at h
  have h1 := h.1.1.1.1
  rwa [Bool.not_eq_true'] at h1

theorem goodChar_dash {c : Char} (h : goodChar c = true) :
    c ≠ enDash ∧ c ≠ emDash ∧ c ≠ hellip := by
  unfold goodChar at h
  simp only [Bool.and_eq_true] at h
  refine ⟨?_, ?_, ?_⟩
  · have h1 := h.1.1.1.2
    rw [Bool.not_eq_true'] at h1
    exact beq_eq_false_iff_ne.mp h1
  · have h1 := h.1.1.2
    rw [Bool.not_eq_true'] at h1
    exact beq_eq_false_iff_ne.mp h1
  · have h1 := h.1.2
    rw [Bool.not_eq_true'] at h1
    exact beq_eq_false_iff_ne.mp h1

theorem goodChar_ws {c : Char} (h : goodChar c = true) :
    isPySpaceB c = true → c = spc ∨ c = nl := by
  intro hws
  unfold goodChar at h
  simp only [Bool.and_eq_true] at h
  have h5 := h.2
  rw [hws] at h5
  simp only [Bool.not_true, Bool.false_or, Bool.or_eq_true, beq_iff_eq] at h5
  exact h5

/-- Any text with the output invariants that the encoding-repair stage
leaves unchanged is a fixed point of the stages that follow the
unicode-normalization stage. -/
theorem preprocess_fixpoint (pp : Bool) (ml : Nat) (y : List Char)
    (hGood : ∀ c ∈ y, goodChar c = true)
    (hyR : pairsOK yROut y)
    (hDD : containsSeq [nl, nl] y = false)
    (hHead : ∀ b, y.head? = some b → isPySpaceB b = false)
    (hLineLast : ∀ l ∈ splitNl y, ∀ a, l.getLast? = some a → isPySpaceB a = false)
    (hLast : ∀ a, y.getLast? = some a → isPySpaceB a = false)
    (hRE : remove_empty_lines ml y = y)
    (hStrip : pyStrip y = y)
    (hfix : fix_common_encoding_issues y = y) :
    pyStrip (remove_empty_lines ml (remove_mid_sentence_newlines
      (remove_excessive_newlines pp (normalize_whitespace
        (clean_special_characters (fix_common_encoding_issues
          (remove_control_characters y))))))) = y := by
  have h1 : remove_control_characters y = y :=
    remove_control_eq_self (fun c hc => goodChar_ctrl (hGood c hc))
  have h3 : clean_special_characters y = y :=
    clean_eq_self (fun c hc => goodChar_dash (hGood c hc))
  have hspOnly : ∀ c ∈ y, spTabB c = true → c = spc := by
    intro c hc hsp
    rcases goodChar_ws (hGood c hc) (spTab_ws hsp) with h | h
    · exact h
    · rw [h] at hsp
      exact absurd hsp (by decide)
  have hnoWs : pairsOK noWsPair y := pairsOK_mono (fun a b hab => hab.2.2) hyR
  have h4a : collapseSpTab y = y := (collapseSpTabGo_id y hspOnly hnoWs).1
  have hcr : cr ∉ y := by
    intro hm
    rcases goodChar_ws (hGood cr hm) (by decide) with h | h
    · exact absurd h (by decide)
    · exact absurd h (by decide)
  have h4b : crlfToNl y = y := crlfToNl_id y hcr
  have h4c : rstripLines y = y := by
    apply rstripLines_eq_self
    intro l hl a ha
    have hws := hLineLast l hl a ha
    cases hv : spTabB a
    · rfl
    · rw [spTab_ws hv] at hws
      exact Bool.noConfusion hws
  have h4 : normalize_whitespace y = y := by
    unfold normalize_whitespace
    rw [h4a, h4b, h4c]
  have h5 : remove_excessive_newlines pp y = y := remove_excessive_id pp hDD
  have hA : pairsOK nlAfterPunct y := pairsOK_mono (fun a b hab => hab.1) hyR
  have hB : pairsOK noPunctSpc y := pairsOK_mono (fun a b hab => hab.2.1) hyR
  have hwsMem : ∀ c ∈ y, isPySpaceB c = true → c = spc ∨ c = nl :=
    fun c hc => goodChar_ws (hGood c hc)
  have hheadnl : ∀ d, y.head? = some d → d ≠ nl := by
    intro d hd he
    have hw := hHead d hd
    rw [he] at hw
    exact absurd hw (by decide)
  have hm1 : nlPlusToSpace y = mapNlSpc y := (nlPlus_mapNlSpc y hDD).1
  have hmapws : ∀ c ∈ mapNlSpc y, isPySpaceB c = true → c = spc := by
    intro c hc hws
    rcases List.mem_map.mp hc with ⟨c0, hc0, heq⟩
    by_cases h0 : c0 = nl
    · rw [← heq, h0]
      simp
    · rw [← heq] at hws ⊢
      rw [if_neg h0] at hws ⊢
      rcases hwsMem c0 hc0 hws with h | h
      · exact h
      · exact absurd h h0
  have hmapNoWs : pairsOK noWsPair (mapNlSpc y) := by
    exact pairsOK_map (fun a b hab hcon => hab ⟨by rw [← ws_mapNl a]; exact hcon.1,
      by rw [← ws_mapNl b]; exact hcon.2⟩) hnoWs
  have hm2 : wsPlusToSpace (mapNlSpc y) = mapNlSpc y :=
    (wsPlusGo_id (mapNlSpc y) hmapws hmapNoWs).1
  have hmaphead : ∀ b, (mapNlSpc y).head? = some b → isPySpaceB b = false := by
    intro b hb
    rw [mapNlSpc_head] at hb
    cases hy0 : y.head? with
    | none =>
      rw [hy0] at hb
      simp at hb
    | some b0 =>
      rw [hy0] at hb
      simp at hb
      have hb0 := hHead b0 hy0
      have hb0nl : b0 ≠ nl := by
        intro he
        rw [he] at hb0
        exact absurd hb0 (by decide)
      rw [if_neg hb0nl] at hb
      rw [← hb]
      exact hb0
  have hmaplast : ∀ a, (mapNlSpc y).getLast? = some a → isPySpaceB a = false := by
    intro a ha
    rw [mapNlSpc_getLast] at ha
    cases hy0 : y.getLast? with
    | none =>
      rw [hy0] at ha
      simp at ha
    | some a0 =>
      rw [hy0] at ha
      simp at ha
      have ha0 := hLast a0 hy0
      have ha0nl : a0 ≠ nl := by
        intro he
        rw [he] at ha0
        exact absurd ha0 (by decide)
      rw [if_neg ha0nl] at ha
      rw [← ha]
      exact ha0
  have hm3 : pyStrip (mapNlSpc y) = mapNlSpc y := pyStrip_eq_self hmaphead hmaplast
  have hm4 : breakAfterPunct (mapNlSpc y) = y :=
    breakRecon y.length y (Nat.le_refl _) hA hB hnoWs hwsMem hheadnl
  have hmid : remove_mid_sentence_newlines y = paraSub y := by
    rw [mid_eq, hm1, hm2, hm3, hm4]
  have hkp0 : keepLine ml [] = false := rfl
  have hpara : remove_empty_lines ml (paraSub y) = remove_empty_lines ml y := by
    unfold remove_empty_lines paraSub
    rw [(para_filtered hkp0 y.length y (Nat.le_refl _)).1]
  rw [h1, hfix, h3, h4, h5, hmid, hpara, hRE, hStrip]



/-- The pipeline with its unicode-normalization stage abstracted: the
other eight stages exactly as in preprocess_text, applied after an
arbitrary normalization function.  A statement quantified over nu covers
the source's NFC normalization exactly, without modelling NFC itself. -/
def preprocess_with (nu : List Char → List Char) (preserve_paragraphs : Bool)
    (min_line_length : Nat) (s : List Char) : List Char :=
  pyStrip (remove_empty_lines min_line_length
    (remove_mid_sentence_newlines
      (remove_excessive_newlines preserve_paragraphs
        (normalize_whitespace
          (clean_special_characters
            (fix_common_encoding_issues
              (remove_control_characters (nu s))))))))

theorem preprocess_with_eq (nu : List Char → List Char) (pp : Bool) (ml : Nat)
    (x : List Char) :
    preprocess_with nu pp ml x =
      pyStrip (remove_empty_lines ml (remove_mid_sentence_newlines
        (remove_excessive_newlines pp (normalize_whitespace
          (clean_special_characters (fix_common_encoding_issues
            (remove_control_characters (nu x)))))))) := rfl

/-- preprocess_text is the abstracted pipeline instantiated at the
(identity-modelled) unicode-normalization stage. -/
theorem preprocess_text_eq_with (pp : Bool) (ml : Nat) (x : List Char) :
    preprocess_text pp ml x = preprocess_with normalize_unicode pp ml x := rfl

/-- C3 (amended): for every unicode-normalization function nu — the
source's NFC included — the pipeline built on nu is idempotent on every
input whose first-pass output both nu and the encoding-repair stage leave
unchanged.  (The unconditional claim fails in two independent ways: the
encoding repair can re-fire on its own output, as in the counterexample
where removing a stray A-circumflex synthesizes a new mojibake sequence,
and NFC can compose a combining sequence that survives the first pass.) -/
theorem c3_conditional_idempotence (nu : List Char → List Char) (pp : Bool)
    (ml : Nat) (x : List Char)
    (hnu : nu (preprocess_with nu pp ml x) = preprocess_with nu pp ml x)
    (hfix : fix_common_encoding_issues (preprocess_with nu pp ml x) =
      preprocess_with nu pp ml x) :
    preprocess_with nu pp ml (preprocess_with nu pp ml x) =
      preprocess_with nu pp ml x := by
  rw [preprocess_with_eq nu pp ml x] at hnu hfix ⊢
  rw [preprocess_with_eq]
  rw [hnu]
  apply preprocess_fixpoint
  · exact stages_good pp ml (nu x)
  · exact out_yR ml _
  · exact no_double_nl_remove_empty ml _
  · exact @pyStrip_head_not_ws (remove_empty_lines ml (remove_mid_sentence_newlines
      (remove_excessive_newlines pp (normalize_whitespace
        (clean_special_characters (fix_common_encoding_issues
          (remove_control_characters (nu x))))))))
  · exact lines_last_not_ws (pairsOK_mono (fun a b hab => hab.2.2) (out_yR ml _))
  · exact @pyStrip_last_not_ws (remove_empty_lines ml (remove_mid_sentence_newlines
      (remove_excessive_newlines pp (normalize_whitespace
        (clean_special_characters (fix_common_encoding_issues
          (remove_control_characters (nu x))))))))
  · exact remove_empty_fix ml _
  · exact pyStrip_idem _
  · exact hfix

set_option maxRecDepth 8000 in
/-- Witness for the amended claim: at the identity-modelled normalization,
a flat configuration and a plain one-letter input, both hypotheses hold
and the pipeline is idempotent. -/
theorem c3_conditional_idempotence_witness :
    normalize_unicode (preprocess_with normalize_unicode false 0 ['a']) =
        preprocess_with normalize_unicode false 0 ['a'] ∧
      fix_common_encoding_issues (preprocess_with normalize_unicode false 0 ['a']) =
        preprocess_with normalize_unicode false 0 ['a'] ∧
      preprocess_with normalize_unicode false 0
          (preprocess_with normalize_unicode false 0 ['a']) =
        preprocess_with normalize_unicode false 0 ['a'] :=
  ⟨rfl, by decide,
    c3_conditional_idempotence normalize_unicode false 0 ['a'] rfl (by decide)⟩
